import Mathlib

/-! # sopreload: the ELF parser, the dependency walker and the worker pool

A shallow embedding of `elfphdr.cc` and `threadpool.h`.

* A mapped file is the list of its bytes; an offset is relative to `data_`.
  Pointer arithmetic is done modulo `2^64`.  The embedding follows a run as
  long as it reads inside the file: at the first read at an offset that is not
  below the length of the file the run is ended with `Outcome.fault`.  What the
  program does from there on is not part of the embedding: `mmap` maps whole
  pages and fills the rest of the last page with zeros, so that such a read
  returns 0 and the run goes on when the offset is inside the last page, and is
  undefined behaviour beyond it.
* `assert` and `ASSERT_EQ` failures are represented by `Outcome.abort` (the
  build does not define `NDEBUG`).
* The two template instantiations of `ElfFile` and `LibPreloader` are the two
  values `elf32` and `elf64` of `ElfClass`, which record the field offsets of
  the structures of `<elf.h>`.
* The threads of the pool are modelled by interleaving: every critical section
  (a region run under one of the two mutexes) is one atomic step.
-/

set_option maxRecDepth 10000

namespace Sopreload

/-- A byte string: file contents, a path or a library name.  Every element is
a byte, a number below 256. -/
abbrev Bytes := List Nat

/-- The ways a piece of the program can end. -/
inductive Outcome (α : Type) where
  /-- ran to its end; for `load_elf` this is `return true` -/
  | ok (a : α)
  /-- `return false` -/
  | fail
  /-- an `assert` or `ASSERT_EQ` failed: the process is aborted -/
  | abort
  /-- a read at an offset outside the file, or signed integer overflow: the
  embedding does not follow the run further -/
  | fault
  deriving DecidableEq, Repr

/-- Sequencing: everything but `ok` ends the computation. -/
def Outcome.bind {α β : Type} (x : Outcome α) (f : α → Outcome β) : Outcome β :=
  match x with
  | .ok a => f a
  | .fail => .fail
  | .abort => .abort
  | .fault => .fault

instance : Monad Outcome where
  pure := Outcome.ok
  bind := Outcome.bind

/-! ## Constants of `<elf.h>` -/

def EI_CLASS : Nat := 4
def EI_DATA : Nat := 5
def ELFCLASS32 : Nat := 1
def ELFCLASS64 : Nat := 2
def ELFDATA2LSB : Nat := 1
def PT_LOAD : Nat := 1
def PT_DYNAMIC : Nat := 2
def DT_NULL : Nat := 0
def DT_NEEDED : Nat := 1
def DT_STRTAB : Nat := 5

/-- The template parameters of `ElfFile`: the class constant and the layout of
`ElfXX_Ehdr`, `ElfXX_Phdr` and `ElfXX_Dyn` (byte offsets of the fields the
parser reads).  `p_type` is at offset 0 and 4 bytes wide in both classes;
`d_tag` is at offset 0 and `d_un` directly follows it, both `word` bytes wide. -/
structure ElfClass where
  /-- `ELFCLASSXX` -/
  ELFCLASSXX : Nat
  /-- size in bytes of `ElfXX_Addr`, `ElfXX_Off` and of the two fields of `ElfXX_Dyn` -/
  word : Nat
  /-- `offsetof(ElfXX_Ehdr, e_phoff)` -/
  off_e_phoff : Nat
  /-- `offsetof(ElfXX_Ehdr, e_phentsize)` -/
  off_e_phentsize : Nat
  /-- `offsetof(ElfXX_Ehdr, e_phnum)` -/
  off_e_phnum : Nat
  /-- `offsetof(ElfXX_Phdr, p_offset)` -/
  off_p_offset : Nat
  /-- `offsetof(ElfXX_Phdr, p_vaddr)` -/
  off_p_vaddr : Nat
  /-- `sizeof(ElfXX_Phdr)` -/
  sizeof_Phdr : Nat
  /-- `sizeof(ElfXX_Dyn)` -/
  sizeof_Dyn : Nat
  deriving DecidableEq, Repr

/-- The instantiation `<ELFCLASS32, Elf32_Ehdr, Elf32_Shdr, Elf32_Phdr, Elf32_Dyn>`. -/
def elf32 : ElfClass where
  ELFCLASSXX := ELFCLASS32
  word := 4
  off_e_phoff := 28
  off_e_phentsize := 42
  off_e_phnum := 44
  off_p_offset := 4
  off_p_vaddr := 8
  sizeof_Phdr := 32
  sizeof_Dyn := 8

/-- The instantiation `<ELFCLASS64, Elf64_Ehdr, Elf64_Shdr, Elf64_Phdr, Elf64_Dyn>`. -/
def elf64 : ElfClass where
  ELFCLASSXX := ELFCLASS64
  word := 8
  off_e_phoff := 32
  off_e_phentsize := 54
  off_e_phnum := 56
  off_p_offset := 8
  off_p_vaddr := 16
  sizeof_Phdr := 56
  sizeof_Dyn := 16

/-! ## Reading the mapping -/

/-- Pointers are 64 bits wide. -/
def ptrMod : Nat := 2 ^ 64

/-- The byte `data_[off]` of the file.  At an offset that is not below the
length of the file the result is `fault`, also where the program reads a zero
of the rest of the last page. -/
def readByte (data : Bytes) (off : Nat) : Outcome Nat :=
  match data.get? off with
  | some b => .ok b
  | none => .fault

/-- A little-endian unsigned field of `n` bytes at offset `off`. -/
def readLE (data : Bytes) (off : Nat) : Nat → Outcome Nat
  | 0 => .ok 0
  | n + 1 =>
    match readByte data off with
    | .ok b =>
      match readLE data (off + 1) n with
      | .ok r => .ok (b + 256 * r)
      | _ => .fault
    | _ => .fault

/-- The `std::string_view` built from the `const char*` at offset `off`: the
bytes up to, not including, the first NUL.  Without a NUL in the file from
`off` on the search leaves the file and the result is `fault`, also where the
program finds a zero in the rest of the last page. -/
def cstr (data : Bytes) (off : Nat) : Outcome Bytes :=
  if 0 ∈ data.drop off then .ok ((data.drop off).takeWhile (fun b => b ≠ 0)) else .fault

/-- Modelled from the spec: the macro `ASSERT_EQ` of `assertop.h`, which is not
among the sources; a mismatch is fatal, as the spec says of bad magic bytes and
of a non-little-endian encoding. -/
def ASSERT_EQ (a b : Nat) : Outcome Unit :=
  if a = b then .ok () else .abort

/-! ## `ElfFile` -/

/-- The member `p_headers_`: program header type to the offset of the header. -/
abbrev PHeaders := List (Nat × Nat)

/-- `ElfFile::loadPhdr`: `unordered_map::insert` keeps an entry that is already
there. -/
def loadPhdr (data : Bytes) (p_headers : PHeaders) (ph : Nat) : Outcome PHeaders :=
  match readLE data ph 4 with
  | .ok p_type =>
    match p_headers.lookup p_type with
    | some _ => .ok p_headers
    | none => .ok (p_headers ++ [(p_type, ph)])
  | _ => .fault

/-- `ElfFile::getPhdr`. -/
def getPhdr (p_headers : PHeaders) (type : Nat) : Option Nat :=
  p_headers.lookup type

/-- The loop `for (int i = 0; i < hdr.e_phnum; i++) loadPhdr(...)` of `load_elf`,
with `n` iterations left.  The product `hdr.e_phentsize * i` is computed in
`int`. -/
def loadPhdrs (c : ElfClass) (data : Bytes) (e_phoff : Nat) :
    Nat → Nat → PHeaders → Outcome PHeaders
  | 0, _, p_headers => .ok p_headers
  | n + 1, i, p_headers =>
    match readLE data c.off_e_phentsize 2 with
    | .ok e_phentsize =>
      if 2 ^ 31 ≤ e_phentsize * i then .fault
      else
        match loadPhdr data p_headers ((e_phoff + e_phentsize * i) % ptrMod) with
        | .ok p_headers1 => loadPhdrs c data e_phoff n (i + 1) p_headers1
        | _ => .fault
    | _ => .fault

/-- The value `entry.d_un.d_ptr - p1.p_vaddr + p1.p_offset`, computed in the
unsigned type `ElfXX_Addr` and added to `data_`. -/
def offsetDelta (c : ElfClass) (d_ptr p_vaddr p_offset : Nat) : Nat :=
  (d_ptr + (2 ^ (8 * c.word) - p_vaddr % 2 ^ (8 * c.word)) + p_offset) % 2 ^ (8 * c.word)

/-- The state of the loop of `loadDynamicStrtab`: the local `found` and the
member `dynamic_strtab_addr_` (`none` is the null pointer, `some off` is
`data_ + off`). -/
structure StrtabState where
  found : Bool
  dynamic_strtab_addr_ : Option Nat
  deriving DecidableEq, Repr

/-- The loop of `ElfFile::loadDynamicStrtab` from entry `i` of the table at
offset `dyntab`; `phdr_` is the offset of the program header table. -/
def strtabLoop (c : ElfClass) (data : Bytes) (phdr_ dyntab : Nat) :
    Nat → Nat → StrtabState → Outcome StrtabState
  | 0, _, _ => .fault
  | fuel + 1, i, st =>
    let entry := (dyntab + i * c.sizeof_Dyn) % ptrMod
    match readLE data entry c.word with
    | .ok d_tag =>
      if d_tag = DT_NULL then .ok st
      else if d_tag = DT_STRTAB then
        if st.found then .abort
        else
          match readLE data phdr_ c.sizeof_Phdr,
                readLE data ((entry + c.word) % ptrMod) c.word,
                readLE data (phdr_ + c.off_p_vaddr) c.word,
                readLE data (phdr_ + c.off_p_offset) c.word with
          | .ok _, .ok d_ptr, .ok p_vaddr, .ok p_offset =>
            strtabLoop c data phdr_ dyntab fuel (i + 1)
              ⟨true, some (offsetDelta c d_ptr p_vaddr p_offset)⟩
          | _, _, _, _ => .fault
      else strtabLoop c data phdr_ dyntab fuel (i + 1) st
    | _ => .fault

/-- `ElfFile::loadDynamicStrtab`; `dynph` is the offset of the `PT_DYNAMIC`
header.  The loop ends at `DT_NULL` or at a read outside the file, after at
most `data.length + 1` entries. -/
def loadDynamicStrtab (c : ElfClass) (data : Bytes) (phdr_ dynph : Nat) :
    Outcome (Option Nat) :=
  match readLE data (dynph + c.off_p_offset) c.word with
  | .ok p_offset =>
    match strtabLoop c data phdr_ p_offset (data.length + 1) 0 ⟨false, none⟩ with
    | .ok st => if st.found then .ok st.dynamic_strtab_addr_ else .abort
    | .abort => .abort
    | _ => .fault
  | _ => .fault

/-- The loop of `ElfFile::loadDynamicNeeded` from entry `i`, appending to
`needed_`. -/
def neededLoop (c : ElfClass) (data : Bytes) (strtab dyntab : Nat) :
    Nat → Nat → List Bytes → Outcome (List Bytes)
  | 0, _, _ => .fault
  | fuel + 1, i, needed_ =>
    let entry := (dyntab + i * c.sizeof_Dyn) % ptrMod
    match readLE data entry c.word with
    | .ok d_tag =>
      if d_tag = DT_NULL then .ok needed_
      else if d_tag = DT_NEEDED then
        match readLE data ((entry + c.word) % ptrMod) c.word with
        | .ok d_val =>
          match cstr data ((strtab + d_val) % ptrMod) with
          | .ok name => neededLoop c data strtab dyntab fuel (i + 1) (needed_ ++ [name])
          | _ => .fault
        | _ => .fault
      else neededLoop c data strtab dyntab fuel (i + 1) needed_
    | _ => .fault

/-- `ElfFile::loadDynamicNeeded`. -/
def loadDynamicNeeded (c : ElfClass) (data : Bytes) (dynamic_strtab_addr_ : Option Nat)
    (dynph : Nat) : Outcome (List Bytes) :=
  match dynamic_strtab_addr_ with
  | none => .abort
  | some strtab =>
    match readLE data (dynph + c.off_p_offset) c.word with
    | .ok p_offset => neededLoop c data strtab p_offset (data.length + 1) 0 []
    | _ => .fault

/-- The four `ASSERT_EQ` on the magic bytes.  `data_` has type `const char*`,
and a byte above 127 equals none of the constants compared with, as a `char` or
as a number. -/
def checkMagic (data : Bytes) : Outcome Unit := do
  ASSERT_EQ (← readByte data 0) 127
  ASSERT_EQ (← readByte data 1) 69
  ASSERT_EQ (← readByte data 2) 76
  ASSERT_EQ (← readByte data 3) 70

/-- The part of `load_elf` from the magic bytes to `assert(dynph)`: the checks
of magic, class and encoding, and the program header loop.  The result is the
pair of `phdr_` and `dynph`, as offsets. -/
def findDynamic (c : ElfClass) (data : Bytes) : Outcome (Nat × Nat) := do
  checkMagic data
  let cls ← readByte data EI_CLASS
  if cls ≠ c.ELFCLASSXX then .fail
  else do
    ASSERT_EQ (← readByte data EI_DATA) ELFDATA2LSB
    let e_phoff ← readLE data c.off_e_phoff c.word
    let e_phnum ← readLE data c.off_e_phnum 2
    let p_headers_ ← loadPhdrs c data e_phoff e_phnum 0 []
    match getPhdr p_headers_ PT_DYNAMIC with
    | none => .abort
    | some dynph => .ok (e_phoff, dynph)

/-- The part of `load_elf` that works on the mapping. -/
def loadMapped (c : ElfClass) (data : Bytes) : Outcome (List Bytes) := do
  let (phdr_, dynph) ← findDynamic c data
  let strtab ← loadDynamicStrtab c data phdr_ dynph
  loadDynamicNeeded c data strtab dynph

/-- The files of the machine: a path either cannot be opened or names a file
with the given contents. -/
abbrev FS := Bytes → Option Bytes

/-- `ElfFile::load_elf`; `ok needed` is `return true` with `GetNeeded() = needed`.
A file of length 0 cannot be mapped (`mmap` fails with `EINVAL`). -/
def load_elf (c : ElfClass) (fs : FS) (filename : Bytes) : Outcome (List Bytes) :=
  match fs filename with
  | none => .fail
  | some data =>
    if data.length = 0 then .abort
    else loadMapped c data

/-! ## `LibPreloader`: the sequential code -/

/-- `kNumThreads`. -/
def kNumThreads : Nat := 8

/-- The character `/`. -/
def slash : Nat := 47

/-- What one run of the body of `LibPreloader::load` did after the claim. -/
structure Probe where
  /-- the values of `full_path` given to `load_elf`, in order -/
  tried : List Bytes
  /-- the names given to `pool_->Post`, in order -/
  posts : List Bytes
  deriving DecidableEq, Repr

/-- The loop `for (const auto& path : paths_)` of `LibPreloader::load`, over
the prefixes that are left. -/
def loadBody (c : ElfClass) (fs : FS) (name : Bytes) : List Bytes → Outcome Probe
  | [] => .ok ⟨[], []⟩
  | path :: rest =>
    let full_path := path ++ [slash] ++ name
    match load_elf c fs full_path with
    | .ok needed => .ok ⟨[full_path], needed⟩
    | .fail =>
      match loadBody c fs name rest with
      | .ok r => .ok ⟨full_path :: r.tried, r.posts⟩
      | o => o
    | .abort => .abort
    | .fault => .fault

/-- `LibPreloader::loadMain` up to its `return`: the value returned and the
names it gave to `pool_->Post`. -/
def loadMain (c : ElfClass) (fs : FS) (filename : Bytes) : Outcome (Bool × List Bytes) :=
  match load_elf c fs filename with
  | .ok needed => .ok (true, needed)
  | .fail => .ok (false, [])
  | .abort => .abort
  | .fault => .fault

/-! ## `LibPreloader`: the walk run by the pool

One `LibPreloader` whose `loadMain` is called once.  The caller thread and the
`kNumThreads` workers take steps in any order.  A step is one critical section
of `m_` or of the mutex of the pool, or a stretch of code that touches no shared
data (the prefix loop of `load`, which only reads files).
-/

/-- Where a worker thread of the pool is. -/
inductive Worker where
  /-- not running a job -/
  | idle
  /-- has taken `load(name)` from the queue, is before the critical section of
  `loaded_` -/
  | start (name : Bytes)
  /-- has claimed `name`, is before the prefix loop -/
  | probing (name : Bytes)
  /-- is in the loop that posts the needed names of the file found, with
  `rest` still to post; with `rest` empty it is before the write to `stats_` -/
  | posting (name : Bytes) (rest : List Bytes)
  /-- `load` has returned, the worker is before `running_--` -/
  | finishing
  deriving DecidableEq, Repr

/-- Where the caller thread is. -/
inductive Caller where
  /-- before `elf.load_elf(filename)` in `loadMain` -/
  | parse
  /-- in the loop of `loadMain` that posts the needed names of the root -/
  | posting (rest : List Bytes)
  /-- `loadMain` has returned this value; the destructor has not run -/
  | returned (value : Bool)
  /-- `pool_->Wait()` has returned in the destructor -/
  | done
  deriving DecidableEq, Repr

/-- The shared data of one `LibPreloader` and its pool, and the threads. -/
structure Walk where
  /-- the queue `jobs_` of the pool: the job `load(name)` is its `name` -/
  jobs_ : List Bytes
  /-- the counter `running_` of the pool -/
  running_ : Nat
  /-- the names whose flag in `loaded_` is true -/
  loaded_ : List Bytes
  /-- the keys of `stats_` (the values are times and a thread id) -/
  stats_ : List Bytes
  workers : List Worker
  caller : Caller
  /-- an assertion has failed or a read has left the file: the run is not
  followed further -/
  crashed : Bool
  /-- history: every call of `Post`, with the name whose `load` made it
  (`none` for `loadMain`) -/
  posted : List (Option Bytes × Bytes)
  /-- history: the names for which the part of `load` after the claim was
  entered, one entry per entry -/
  bodies : List Bytes
  deriving DecidableEq, Repr

/-- The assignment `stats_[name] = ...`: a map has one entry per key. -/
def statsAssign (stats_ : List Bytes) (name : Bytes) : List Bytes :=
  if name ∈ stats_ then stats_ else stats_ ++ [name]

/-- The state when `loadMain` is called. -/
def Walk.init : Walk where
  jobs_ := []
  running_ := 0
  loaded_ := []
  stats_ := []
  workers := List.replicate kNumThreads Worker.idle
  caller := Caller.parse
  crashed := false
  posted := []
  bodies := []

/-- One step of one thread. -/
inductive Walk.Step (c : ElfClass) (fs : FS) (paths_ : List Bytes) (filename : Bytes) :
    Walk → Walk → Prop
  /-- `loadMain`: `load_elf` returns true -/
  | parse_ok (s : Walk) (needed : List Bytes) :
    s.crashed = false → s.caller = Caller.parse → load_elf c fs filename = Outcome.ok needed →
    Walk.Step c fs paths_ filename s { s with caller := Caller.posting needed }
  /-- `loadMain`: `load_elf` returns false, `loadMain` returns false -/
  | parse_fail (s : Walk) :
    s.crashed = false → s.caller = Caller.parse → load_elf c fs filename = Outcome.fail →
    Walk.Step c fs paths_ filename s { s with caller := Caller.returned false }
  /-- `loadMain`: `load_elf` does not return -/
  | parse_crash (s : Walk) :
    s.crashed = false → s.caller = Caller.parse →
    (load_elf c fs filename = Outcome.abort ∨ load_elf c fs filename = Outcome.fault) →
    Walk.Step c fs paths_ filename s { s with crashed := true }
  /-- `loadMain`: `pool_->Post` of the next needed name -/
  | caller_post (s : Walk) (name : Bytes) (rest : List Bytes) :
    s.crashed = false → s.caller = Caller.posting (name :: rest) →
    Walk.Step c fs paths_ filename s
      { s with jobs_ := s.jobs_ ++ [name], posted := s.posted ++ [(none, name)],
               caller := Caller.posting rest }
  /-- `loadMain`: `stats_[filename] = ...` and `return true` -/
  | caller_record (s : Walk) :
    s.crashed = false → s.caller = Caller.posting [] →
    Walk.Step c fs paths_ filename s
      { s with stats_ := statsAssign s.stats_ filename, caller := Caller.returned true }
  /-- the destructor: `Wait` finds the queue empty and `running_` zero -/
  | caller_wait (s : Walk) :
    s.crashed = false → s.caller = Caller.returned true → s.jobs_ = [] → s.running_ = 0 →
    Walk.Step c fs paths_ filename s { s with caller := Caller.done }
  /-- a worker takes the front job and does `running_++` -/
  | pop (s : Walk) (before after : List Worker) (name : Bytes) (rest : List Bytes) :
    s.crashed = false → s.workers = before ++ Worker.idle :: after → s.jobs_ = name :: rest →
    Walk.Step c fs paths_ filename s
      { s with jobs_ := rest, running_ := s.running_ + 1,
               workers := before ++ Worker.start name :: after }
  /-- `load`: the flag of the name is set already, `load` returns -/
  | skip (s : Walk) (before after : List Worker) (name : Bytes) :
    s.crashed = false → s.workers = before ++ Worker.start name :: after → name ∈ s.loaded_ →
    Walk.Step c fs paths_ filename s { s with workers := before ++ Worker.finishing :: after }
  /-- `load`: the flag of the name is not set; it is set -/
  | claim (s : Walk) (before after : List Worker) (name : Bytes) :
    s.crashed = false → s.workers = before ++ Worker.start name :: after → name ∉ s.loaded_ →
    Walk.Step c fs paths_ filename s
      { s with loaded_ := s.loaded_ ++ [name], bodies := s.bodies ++ [name],
               workers := before ++ Worker.probing name :: after }
  /-- `load`: the prefix loop runs to its end or to its `break` -/
  | probe_ok (s : Walk) (before after : List Worker) (name : Bytes) (r : Probe) :
    s.crashed = false → s.workers = before ++ Worker.probing name :: after →
    loadBody c fs name paths_ = Outcome.ok r →
    Walk.Step c fs paths_ filename s
      { s with workers := before ++ Worker.posting name r.posts :: after }
  /-- `load`: a `load_elf` of the prefix loop does not return -/
  | probe_crash (s : Walk) (before after : List Worker) (name : Bytes) :
    s.crashed = false → s.workers = before ++ Worker.probing name :: after →
    (∀ r, loadBody c fs name paths_ ≠ Outcome.ok r) →
    Walk.Step c fs paths_ filename s { s with crashed := true }
  /-- `load`: `pool_->Post` of the next needed name of the file found -/
  | post (s : Walk) (before after : List Worker) (name child : Bytes) (rest : List Bytes) :
    s.crashed = false → s.workers = before ++ Worker.posting name (child :: rest) :: after →
    Walk.Step c fs paths_ filename s
      { s with jobs_ := s.jobs_ ++ [child], posted := s.posted ++ [(some name, child)],
               workers := before ++ Worker.posting name rest :: after }
  /-- `load`: `stats_[name] = ...`, `load` returns -/
  | record (s : Walk) (before after : List Worker) (name : Bytes) :
    s.crashed = false → s.workers = before ++ Worker.posting name [] :: after →
    Walk.Step c fs paths_ filename s
      { s with stats_ := statsAssign s.stats_ name,
               workers := before ++ Worker.finishing :: after }
  /-- the worker does `running_--` -/
  | finish (s : Walk) (before after : List Worker) :
    s.crashed = false → s.workers = before ++ Worker.finishing :: after →
    Walk.Step c fs paths_ filename s
      { s with running_ := s.running_ - 1, workers := before ++ Worker.idle :: after }

/-- The states an execution can be in. -/
inductive Walk.Reachable (c : ElfClass) (fs : FS) (paths_ : List Bytes) (filename : Bytes) :
    Walk → Prop
  | init : Walk.Reachable c fs paths_ filename Walk.init
  | step (s t : Walk) : Walk.Reachable c fs paths_ filename s →
    Walk.Step c fs paths_ filename s t → Walk.Reachable c fs paths_ filename t

/-- The names given to `Post` so far. -/
def Walk.postedNames (s : Walk) : List Bytes := s.posted.map Prod.snd

/-! ## `Threadpool`, driven by a caller that posts `N` jobs and waits

Each job increments a shared counter.  The caller posts the jobs numbered
`0 .. N-1`, calls `Wait` and then reads the counter.
-/

/-- Where an executor thread of `Threadpool` is. -/
inductive Executor where
  /-- at `cv_.wait` or at the test of the inner `while` -/
  | idle
  /-- has done `jobs_.pop()`, `running_++` and `lm.unlock()`; the job has not run -/
  | running (job : Nat)
  /-- the job has run; the executor is before `lm.lock()` and `running_--` -/
  | ran
  deriving DecidableEq, Repr

/-- Where the thread that uses the pool is. -/
inductive Client where
  /-- has posted the jobs below `next` -/
  | posting (next : Nat)
  /-- `Wait()` has returned, the counter is not read yet -/
  | waited
  /-- has read this value of the counter -/
  | read (value : Nat)
  deriving DecidableEq, Repr

/-- The members of `Threadpool`, the shared counter and the threads. -/
structure Pool where
  jobs_ : List Nat
  running_ : Nat
  executors_ : List Executor
  counter : Nat
  client : Client
  deriving DecidableEq, Repr

/-- The pool `Threadpool(n)` before the first `Post`. -/
def Pool.init (n : Nat) : Pool where
  jobs_ := []
  running_ := 0
  executors_ := List.replicate n Executor.idle
  counter := 0
  client := Client.posting 0

/-- One step of one thread; `N` is the number of jobs the client posts. -/
inductive Pool.Step (N : Nat) : Pool → Pool → Prop
  /-- `Post`: `jobs_.push(job)` under the mutex -/
  | post (s : Pool) (k : Nat) :
    s.client = Client.posting k → k < N →
    Pool.Step N s { s with jobs_ := s.jobs_ ++ [k], client := Client.posting (k + 1) }
  /-- `Wait`: under the mutex `jobs_.size() || running_` is false -/
  | wait (s : Pool) :
    s.client = Client.posting N → s.jobs_ = [] → s.running_ = 0 →
    Pool.Step N s { s with client := Client.waited }
  /-- the client reads the counter -/
  | read (s : Pool) :
    s.client = Client.waited →
    Pool.Step N s { s with client := Client.read s.counter }
  /-- an executor holds the mutex, finds a job, pops it, does `running_++` and
  unlocks -/
  | pop (s : Pool) (before after : List Executor) (job : Nat) (rest : List Nat) :
    s.executors_ = before ++ Executor.idle :: after → s.jobs_ = job :: rest →
    Pool.Step N s
      { s with jobs_ := rest, running_ := s.running_ + 1,
               executors_ := before ++ Executor.running job :: after }
  /-- the job runs: it increments the counter -/
  | run (s : Pool) (before after : List Executor) (job : Nat) :
    s.executors_ = before ++ Executor.running job :: after →
    Pool.Step N s
      { s with counter := s.counter + 1, executors_ := before ++ Executor.ran :: after }
  /-- the executor locks and does `running_--` -/
  | finish (s : Pool) (before after : List Executor) :
    s.executors_ = before ++ Executor.ran :: after →
    Pool.Step N s
      { s with running_ := s.running_ - 1, executors_ := before ++ Executor.idle :: after }

/-- The states an execution can be in. -/
inductive Pool.Reachable (N n : Nat) : Pool → Prop
  | init : Pool.Reachable N n (Pool.init n)
  | step (s t : Pool) : Pool.Reachable N n s → Pool.Step N s t → Pool.Reachable N n t

/-! ## The contents of a file, read as the ELF format defines them -/

/-- The entries `(d_tag, d_un)` of the dynamic table at offset `dyntab`, from
entry `i` up to, not including, the `DT_NULL` entry; `none` when the table runs
out of the file. -/
def dynEntries (c : ElfClass) (data : Bytes) (dyntab : Nat) : Nat → Nat → Option (List (Nat × Nat))
  | 0, _ => none
  | fuel + 1, i =>
    let entry := (dyntab + i * c.sizeof_Dyn) % ptrMod
    match readLE data entry c.word with
    | .ok d_tag =>
      if d_tag = DT_NULL then some []
      else
        match readLE data ((entry + c.word) % ptrMod) c.word with
        | .ok d_un =>
          match dynEntries c data dyntab fuel (i + 1) with
          | some rest => some ((d_tag, d_un) :: rest)
          | none => none
        | _ => none
    | _ => none

/-- The dynamic table of a file whose `PT_DYNAMIC` header says it is at
`dyntab`. -/
def dynTable (c : ElfClass) (data : Bytes) (dyntab : Nat) : Option (List (Nat × Nat)) :=
  dynEntries c data dyntab (data.length + 1) 0

/-- The values of the entries with tag `tag`. -/
def entriesWith (tag : Nat) (ents : List (Nat × Nat)) : List Nat :=
  (ents.filter (fun e => e.1 = tag)).map Prod.snd

/-- The names `loadDynamicNeeded` makes of the `DT_NEEDED` entries of a table
when the string table is at offset `strtab`. -/
def namesAt (data : Bytes) (strtab : Nat) : List Nat → Outcome (List Bytes)
  | [] => .ok []
  | d_val :: rest =>
    match cstr data ((strtab + d_val) % ptrMod) with
    | .ok name =>
      match namesAt data strtab rest with
      | .ok names => .ok (name :: names)
      | _ => .fault
    | _ => .fault

/-- A program header of an ELF64 file: the fields the format needs to place a
segment. -/
structure Phdr64 where
  p_type : Nat
  p_offset : Nat
  p_vaddr : Nat
  p_filesz : Nat
  deriving DecidableEq, Repr

/-- The program header at offset `off`. -/
def phdr64At (data : Bytes) (off : Nat) : Option Phdr64 :=
  match readLE data off 4, readLE data (off + 8) 8, readLE data (off + 16) 8,
        readLE data (off + 32) 8 with
  | .ok t, .ok o, .ok v, .ok f => some ⟨t, o, v, f⟩
  | _, _, _, _ => none

/-- The `n` program headers of the table at `e_phoff` with entries of size
`e_phentsize`, from entry `i` on. -/
def phdrs64From (data : Bytes) (e_phoff e_phentsize : Nat) : Nat → Nat → Option (List Phdr64)
  | 0, _ => some []
  | n + 1, i =>
    match phdr64At data (e_phoff + i * e_phentsize), phdrs64From data e_phoff e_phentsize n (i + 1) with
    | some h, some rest => some (h :: rest)
    | _, _ => none

/-- The program header table of an ELF64 file. -/
def phdrs64 (data : Bytes) : Option (List Phdr64) :=
  match readLE data 32 8, readLE data 54 2, readLE data 56 2 with
  | .ok e_phoff, .ok e_phentsize, .ok e_phnum => phdrs64From data e_phoff e_phentsize e_phnum 0
  | _, _, _ => none

/-- The file offset of the virtual address `addr`: the address lies in the
part of a `PT_LOAD` segment that the file holds. -/
def fileOffset (phdrs : List Phdr64) (addr : Nat) : Option Nat :=
  match phdrs.find? (fun h => h.p_type = PT_LOAD ∧ h.p_vaddr ≤ addr ∧ addr < h.p_vaddr + h.p_filesz) with
  | some h => some (addr - h.p_vaddr + h.p_offset)
  | none => none

/-- The file offset of the virtual address `addr` by the first `PT_LOAD` header
of the table, whether or not its segment holds the address. -/
def fileOffsetFirstLoad (phdrs : List Phdr64) (addr : Nat) : Option Nat :=
  match phdrs.find? (fun h => h.p_type = PT_LOAD) with
  | some h => some ((addr + (2 ^ 64 - h.p_vaddr % 2 ^ 64) + h.p_offset) % 2 ^ 64)
  | none => none

/-- The dynamic table of an ELF64 file: the table of its `PT_DYNAMIC` segment. -/
def dynamic64 (data : Bytes) : Option (List (Nat × Nat)) :=
  match phdrs64 data with
  | some phdrs =>
    match phdrs.find? (fun h => h.p_type = PT_DYNAMIC) with
    | some h => dynTable elf64 data h.p_offset
    | none => none
  | none => none

/-- The file offset of the string table of an ELF64 file: the address of its
`DT_STRTAB` entry, placed by the segment that holds it. -/
def strtab64 (data : Bytes) : Option Nat :=
  match phdrs64 data, dynamic64 data with
  | some phdrs, some ents =>
    match entriesWith DT_STRTAB ents with
    | [d_ptr] => fileOffset phdrs d_ptr
    | _ => none
  | _, _ => none

/-- The names of the `DT_NEEDED` entries of an ELF64 file, in the order of the
entries: each is the NUL-terminated string at offset `d_val` of the string
table. -/
def neededNames64 (data : Bytes) : Option (List Bytes) :=
  match dynamic64 data, strtab64 data with
  | some ents, some strtab =>
    match namesAt data strtab (entriesWith DT_NEEDED ents) with
    | .ok names => some names
    | _ => none
  | _, _ => none

/-- A well-formed little-endian ELF64 dynamically linked file. -/
structure WellFormed64 (data : Bytes) : Prop where
  bytes : ∀ b ∈ data, b < 256
  magic : data.take 4 = [127, 69, 76, 70]
  cls : data.get? EI_CLASS = some ELFCLASS64
  encoding : data.get? EI_DATA = some ELFDATA2LSB
  e_phentsize : readLE data 54 2 = Outcome.ok 56
  /-- the program header table lies in the file -/
  table : ∃ phdrs, phdrs64 data = some phdrs ∧
    /- there is one `PT_DYNAMIC` header -/
    (phdrs.filter (fun h => h.p_type = PT_DYNAMIC)).length = 1 ∧
    /- the segments lie in the file; address and offset of a loadable segment
       are congruent modulo the page size -/
    (∀ h ∈ phdrs, h.p_offset + h.p_filesz ≤ data.length) ∧
    (∀ h ∈ phdrs, h.p_type = PT_LOAD → h.p_vaddr % 4096 = h.p_offset % 4096)
  /-- the dynamic table ends with `DT_NULL` and has one `DT_STRTAB` entry -/
  dynamic : ∃ ents, dynamic64 data = some ents ∧ (entriesWith DT_STRTAB ents).length = 1
  /-- the string table is in a loadable segment and every needed name in it
  ends in the file -/
  names : ∃ names, neededNames64 data = some names

/-! ## Files used as examples -/

/-- The `w` bytes of the little-endian number `n`. -/
def le : Nat → Nat → Bytes
  | 0, _ => []
  | w + 1, n => n % 256 :: le w (n / 256)

/-- An `Elf64_Ehdr` of a little-endian object of type `ET_DYN` for x86-64. -/
def ehdr64 (e_phoff e_phentsize e_phnum : Nat) : Bytes :=
  [127, 69, 76, 70, 2, 1, 1, 0, 0, 0, 0, 0, 0, 0, 0, 0] ++ le 2 3 ++ le 2 62 ++ le 4 1 ++ le 8 0
    ++ le 8 e_phoff ++ le 8 0 ++ le 4 0 ++ le 2 64 ++ le 2 e_phentsize ++ le 2 e_phnum
    ++ le 2 64 ++ le 2 0 ++ le 2 0

/-- An `Elf64_Phdr` with `p_paddr = p_vaddr` and `p_memsz = p_filesz`. -/
def phdr64 (p_type p_flags p_offset p_vaddr p_filesz p_align : Nat) : Bytes :=
  le 4 p_type ++ le 4 p_flags ++ le 8 p_offset ++ le 8 p_vaddr ++ le 8 p_vaddr ++ le 8 p_filesz
    ++ le 8 p_filesz ++ le 8 p_align

/-- An `Elf64_Dyn`. -/
def dyn64 (d_tag d_un : Nat) : Bytes := le 8 d_tag ++ le 8 d_un

/-- The name `libc.so.6`. -/
def libc_so_6 : Bytes := [108, 105, 98, 99, 46, 115, 111, 46, 54]

/-- The name `libm.so.6`. -/
def libm_so_6 : Bytes := [108, 105, 98, 109, 46, 115, 111, 46, 54]

/-- The name `libx.so.1`. -/
def libx_so_1 : Bytes := [108, 105, 98, 120, 46, 115, 111, 46, 49]

/-- The path `/lib`. -/
def slash_lib : Bytes := [47, 108, 105, 98]

/-- The path `prog`. -/
def prog : Bytes := [112, 114, 111, 103]

/-- A shared object of 261 bytes: a `PT_LOAD` header for the whole file at
address 0, a `PT_DYNAMIC` header, the dynamic table at offset 176 with
`DT_NEEDED 1`, `DT_NEEDED 11`, `DT_STRTAB 240`, and the string table at offset
240 holding `libc.so.6` and `libm.so.6`. -/
def progFile : Bytes :=
  ehdr64 64 56 2 ++ phdr64 PT_LOAD 5 0 0 261 4096 ++ phdr64 PT_DYNAMIC 6 176 176 64 8
    ++ dyn64 DT_NEEDED 1 ++ dyn64 DT_NEEDED 11 ++ dyn64 DT_STRTAB 240 ++ dyn64 DT_NULL 0
    ++ [0] ++ libc_so_6 ++ [0] ++ libm_so_6 ++ [0]

/-- A shared object of 235 bytes that needs `libc.so.6`. -/
def libmFile : Bytes :=
  ehdr64 64 56 2 ++ phdr64 PT_LOAD 5 0 0 235 4096 ++ phdr64 PT_DYNAMIC 6 176 176 48 8
    ++ dyn64 DT_NEEDED 1 ++ dyn64 DT_STRTAB 224 ++ dyn64 DT_NULL 0
    ++ [0] ++ libc_so_6 ++ [0]

/-- A shared object of 209 bytes that needs nothing. -/
def libcFile : Bytes :=
  ehdr64 64 56 2 ++ phdr64 PT_LOAD 5 0 0 209 4096 ++ phdr64 PT_DYNAMIC 6 176 176 32 8
    ++ dyn64 DT_STRTAB 208 ++ dyn64 DT_NULL 0
    ++ [0]

/-- The type `PT_GNU_STACK`. -/
def PT_GNU_STACK : Nat := 0x6474e551

/-- The first 304 bytes of `stackFirstFile`: the ELF header, the headers
`PT_GNU_STACK` (offset 0, address 0, size 0, as linkers write it), `PT_LOAD`
(the whole file at address 4096) and `PT_DYNAMIC` (offset 256, address 4352),
the string table at offset 232 holding `libc.so.6`, and the dynamic table
`DT_NEEDED 1`, `DT_STRTAB 4328`. -/
def stackFirstHead : Bytes :=
  ehdr64 64 56 3 ++ phdr64 PT_GNU_STACK 6 0 0 0 16 ++ phdr64 PT_LOAD 7 0 4096 4400 4096
    ++ phdr64 PT_DYNAMIC 6 256 4352 48 8
    ++ [0] ++ libc_so_6 ++ [0] ++ List.replicate 13 0
    ++ dyn64 DT_NEEDED 1 ++ dyn64 DT_STRTAB 4328 ++ dyn64 DT_NULL 0

/-- The last 71 bytes of `stackFirstFile`, which start at offset 4329: data of
the program that holds the string `libx.so.1`. -/
def stackFirstTail : Bytes :=
  libx_so_1 ++ [0] ++ List.replicate 61 0

/-- A dynamically linked object of 4400 bytes whose one loadable segment is
the whole file at address 4096, and whose program header table starts with the
`PT_GNU_STACK` header.  Its string table is at address 4328, which is file
offset 232. -/
def stackFirstFile : Bytes :=
  (stackFirstHead ++ List.replicate 4025 0) ++ stackFirstTail

/-- A machine with the one file `prog`, and no library under any directory. -/
def fsAlone : FS := fun path => if path = prog then some progFile else none

/-- A machine with `prog`, `/lib/libc.so.6` and `/lib/libm.so.6`. -/
def fsLibs : FS := fun path =>
  if path = prog then some progFile
  else if path = slash_lib ++ [slash] ++ libc_so_6 then some libcFile
  else if path = slash_lib ++ [slash] ++ libm_so_6 then some libmFile
  else none

/-- A shell script of ten bytes, `#!/bin/sh` and a newline: a file that is
not an ELF file. -/
def scriptFile : Bytes := [35, 33, 47, 98, 105, 110, 47, 115, 104, 10]

/-- A machine where `/lib/libc.so.6` is an empty file. -/
def fsEmptyLib : FS := fun path =>
  if path = slash_lib ++ [slash] ++ libc_so_6 then some [] else none

/-- A machine where every path names the shell script. -/
def fsScripts : FS := fun _ => some scriptFile

/-- What the loop of `loadDynamicStrtab` makes of the values of the
`DT_STRTAB` entries of a table, when program header 0 has the address
`p_vaddr` and the offset `p_offset`. -/
def strtabResult (c : ElfClass) (p_vaddr p_offset : Nat) :
    StrtabState → List Nat → Outcome StrtabState
  | st, [] => .ok st
  | st, d_ptr :: rest =>
    if st.found then .abort
    else strtabResult c p_vaddr p_offset ⟨true, some (offsetDelta c d_ptr p_vaddr p_offset)⟩ rest

/-- A machine with the one file `prog`, whose contents are `stackFirstFile`. -/
def fsStackFirst : FS := fun path => if path = prog then some stackFirstFile else none

/-- The executor is between `running_++` and `running_--`. -/
def Executor.busy : Executor → Bool
  | Executor.idle => false
  | _ => true

/-- The executor holds a job that has not run. -/
def Executor.holdsJob : Executor → Bool
  | Executor.running _ => true
  | _ => false

/-- The number of calls of `Post` the client has made. -/
def Client.postedCount (N : Nat) : Client → Nat
  | Client.posting k => k
  | _ => N

/-- What holds in every state of the pool. -/
structure Pool.Inv (N : Nat) (s : Pool) : Prop where
  running : s.running_ = (s.executors_.filter Executor.busy).length
  jobs : s.counter + s.jobs_.length + (s.executors_.filter Executor.holdsJob).length
    = s.client.postedCount N
  bound : ∀ k, s.client = Client.posting k → k ≤ N
  quiet : (∀ k, s.client ≠ Client.posting k) →
    s.jobs_ = [] ∧ ∀ e ∈ s.executors_, e = Executor.idle
  value : ∀ v, s.client = Client.read v → v = N

/-- The pool of two executors after two jobs were posted and run, `Wait` has
returned and the client has read the counter. -/
def poolAfterTwo : Pool where
  jobs_ := []
  running_ := 0
  executors_ := [Executor.idle, Executor.idle]
  counter := 2
  client := Client.read 2

/-- The worker is between `running_++` and `running_--`. -/
def Worker.busy : Worker → Bool
  | Worker.idle => false
  | _ => true

/-- The name the worker has claimed and not yet written to `stats_`. -/
def Worker.body : Worker → Option Bytes
  | Worker.probing name => some name
  | Worker.posting name _ => some name
  | _ => none

/-- The names `loadMain` has still to post. -/
def Caller.pending : Caller → List Bytes
  | Caller.posting rest => rest
  | _ => []

/-- What holds in every state of the walk. -/
structure Walk.Inv (c : ElfClass) (fs : FS) (paths_ : List Bytes) (filename : Bytes)
    (s : Walk) : Prop where
  bodies_eq : s.bodies = s.loaded_
  nodup : s.loaded_.Nodup
  jobs_posted : ∀ n ∈ s.jobs_, n ∈ s.postedNames
  start_posted : ∀ n, Worker.start n ∈ s.workers → n ∈ s.postedNames
  loaded_posted : ∀ n ∈ s.loaded_, n ∈ s.postedNames
  posted_pending : ∀ n ∈ s.postedNames,
    n ∈ s.jobs_ ∨ Worker.start n ∈ s.workers ∨ n ∈ s.loaded_
  loaded_stats : ∀ n ∈ s.loaded_, (∃ w ∈ s.workers, w.body = some n) ∨ n ∈ s.stats_
  stats_nodup : s.stats_.Nodup
  running : s.running_ = (s.workers.filter Worker.busy).length
  quiet : s.caller = Caller.done → s.jobs_ = [] ∧ ∀ w ∈ s.workers, w = Worker.idle
  root : ∀ needed, load_elf c fs filename = Outcome.ok needed → s.caller ≠ Caller.parse →
    ∀ n ∈ needed, n ∈ s.caller.pending ∨ (none, n) ∈ s.posted
  children : ∀ n rest, Worker.posting n rest ∈ s.workers →
    ∃ r, loadBody c fs n paths_ = Outcome.ok r ∧ ∀ x ∈ rest, x ∈ r.posts
  posted_children : ∀ n x, (some n, x) ∈ s.posted →
    ∃ r, loadBody c fs n paths_ = Outcome.ok r ∧ x ∈ r.posts
  alive : s.caller = Caller.done → s.crashed = false

/-- The number of entries of a list of names that are `name`. -/
def occurrences (name : Bytes) (l : List Bytes) : Nat :=
  (l.filter (fun n => n = name)).length

/-- The walk of `prog` on `fsAlone` with the one prefix `/lib`, after the pool
has drained: neither library was found. -/
def walkAloneDone : Walk where
  jobs_ := []
  running_ := 0
  loaded_ := [libc_so_6, libm_so_6]
  stats_ := [prog, libc_so_6, libm_so_6]
  workers := List.replicate kNumThreads Worker.idle
  caller := Caller.done
  crashed := false
  posted := [(none, libc_so_6), (none, libm_so_6)]
  bodies := [libc_so_6, libm_so_6]

/-- The walk of `prog` on `fsLibs` with the one prefix `/lib`, after the pool
has drained; `libc.so.6` was posted by `loadMain` and by `load` of
`libm.so.6`. -/
def walkLibsDone : Walk where
  jobs_ := []
  running_ := 0
  loaded_ := [libm_so_6, libc_so_6]
  stats_ := [prog, libc_so_6, libm_so_6]
  workers := List.replicate kNumThreads Worker.idle
  caller := Caller.done
  crashed := false
  posted := [(none, libc_so_6), (none, libm_so_6), (some libm_so_6, libc_so_6)]
  bodies := [libm_so_6, libc_so_6]

/-! ## The offsets the parser reads

Every function of the parser has a companion that lists the offsets into the
mapping it reads, in order, following the same control flow.  A list ends with
the run: at `return`, at a failed assertion, or with the offsets of the first
field that is not inside the file.  The loop of `load_elf` reads `hdr.e_phnum`
and `hdr.e_phoff` again in every iteration; their offsets are listed once,
before the loop. -/

/-- The offsets of the bytes of a field of `n` bytes at offset `off`. -/
def fieldReads (off n : Nat) : List Nat :=
  (List.range n).map (fun k => off + k)

/-- The offsets read when a `std::string_view` is built from the `const char*`
at offset `off`: the bytes of the string and its NUL; without a NUL in the file,
every offset from `off` up to the first one outside the file. -/
def cstrReads (data : Bytes) (off : Nat) : List Nat :=
  if 0 ∈ data.drop off then
    fieldReads off (((data.drop off).takeWhile (fun b => b ≠ 0)).length + 1)
  else fieldReads off (data.length - off + 1)

/-- The offsets `checkMagic` reads: an `ASSERT_EQ` that fails ends the run. -/
def checkMagicReads (data : Bytes) : List Nat :=
  0 :: (if readByte data 0 = Outcome.ok 127 then
    1 :: (if readByte data 1 = Outcome.ok 69 then
      2 :: (if readByte data 2 = Outcome.ok 76 then [3] else [])
    else [])
  else [])

/-- The offsets `loadPhdrs` reads: `hdr.e_phentsize` and `ph->p_type` in every
iteration. -/
def loadPhdrsReads (c : ElfClass) (data : Bytes) (e_phoff : Nat) :
    Nat → Nat → PHeaders → List Nat
  | 0, _, _ => []
  | n + 1, i, p_headers =>
    fieldReads c.off_e_phentsize 2 ++
    match readLE data c.off_e_phentsize 2 with
    | .ok e_phentsize =>
      if 2 ^ 31 ≤ e_phentsize * i then []
      else
        fieldReads ((e_phoff + e_phentsize * i) % ptrMod) 4 ++
        match loadPhdr data p_headers ((e_phoff + e_phentsize * i) % ptrMod) with
        | .ok p_headers1 => loadPhdrsReads c data e_phoff n (i + 1) p_headers1
        | _ => []
    | _ => []

/-- The offsets `findDynamic` reads. -/
def findDynamicReads (c : ElfClass) (data : Bytes) : List Nat :=
  checkMagicReads data ++
  match checkMagic data with
  | .ok _ =>
    EI_CLASS ::
    match readByte data EI_CLASS with
    | .ok cls =>
      if cls ≠ c.ELFCLASSXX then []
      else
        EI_DATA ::
        match readByte data EI_DATA with
        | .ok enc =>
          if enc = ELFDATA2LSB then
            fieldReads c.off_e_phoff c.word ++
            match readLE data c.off_e_phoff c.word with
            | .ok e_phoff =>
              fieldReads c.off_e_phnum 2 ++
              match readLE data c.off_e_phnum 2 with
              | .ok e_phnum => loadPhdrsReads c data e_phoff e_phnum 0 []
              | _ => []
            | _ => []
          else []
        | _ => []
    | _ => []
  | _ => []

/-- The offsets the loop of `loadDynamicStrtab` reads from entry `i` on: the
tag of every entry up to `DT_NULL`, and at a `DT_STRTAB` entry that passes
`assert(!found)` the whole of `phdr_[0]` and `d_un`. -/
def strtabLoopReads (c : ElfClass) (data : Bytes) (phdr_ dyntab : Nat) :
    Nat → Nat → StrtabState → List Nat
  | 0, _, _ => []
  | fuel + 1, i, st =>
    let entry := (dyntab + i * c.sizeof_Dyn) % ptrMod
    fieldReads entry c.word ++
    match readLE data entry c.word with
    | .ok d_tag =>
      if d_tag = DT_NULL then []
      else if d_tag = DT_STRTAB then
        if st.found then []
        else
          fieldReads phdr_ c.sizeof_Phdr ++ fieldReads ((entry + c.word) % ptrMod) c.word ++
          fieldReads (phdr_ + c.off_p_vaddr) c.word ++
          fieldReads (phdr_ + c.off_p_offset) c.word ++
          match readLE data phdr_ c.sizeof_Phdr,
                readLE data ((entry + c.word) % ptrMod) c.word,
                readLE data (phdr_ + c.off_p_vaddr) c.word,
                readLE data (phdr_ + c.off_p_offset) c.word with
          | .ok _, .ok d_ptr, .ok p_vaddr, .ok p_offset =>
            strtabLoopReads c data phdr_ dyntab fuel (i + 1)
              ⟨true, some (offsetDelta c d_ptr p_vaddr p_offset)⟩
          | _, _, _, _ => []
      else strtabLoopReads c data phdr_ dyntab fuel (i + 1) st
    | _ => []

/-- The offsets `loadDynamicStrtab` reads. -/
def loadDynamicStrtabReads (c : ElfClass) (data : Bytes) (phdr_ dynph : Nat) : List Nat :=
  fieldReads (dynph + c.off_p_offset) c.word ++
  match readLE data (dynph + c.off_p_offset) c.word with
  | .ok p_offset => strtabLoopReads c data phdr_ p_offset (data.length + 1) 0 ⟨false, none⟩
  | _ => []

/-- The offsets the loop of `loadDynamicNeeded` reads from entry `i` on: the
tag of every entry up to `DT_NULL`, and at a `DT_NEEDED` entry `d_un` and the
name up to its NUL. -/
def neededLoopReads (c : ElfClass) (data : Bytes) (strtab dyntab : Nat) :
    Nat → Nat → List Nat
  | 0, _ => []
  | fuel + 1, i =>
    let entry := (dyntab + i * c.sizeof_Dyn) % ptrMod
    fieldReads entry c.word ++
    match readLE data entry c.word with
    | .ok d_tag =>
      if d_tag = DT_NULL then []
      else if d_tag = DT_NEEDED then
        fieldReads ((entry + c.word) % ptrMod) c.word ++
        match readLE data ((entry + c.word) % ptrMod) c.word with
        | .ok d_val =>
          cstrReads data ((strtab + d_val) % ptrMod) ++
          match cstr data ((strtab + d_val) % ptrMod) with
          | .ok _ => neededLoopReads c data strtab dyntab fuel (i + 1)
          | _ => []
        | _ => []
      else neededLoopReads c data strtab dyntab fuel (i + 1)
    | _ => []

/-- The offsets `loadDynamicNeeded` reads. -/
def loadDynamicNeededReads (c : ElfClass) (data : Bytes) (dynamic_strtab_addr_ : Option Nat)
    (dynph : Nat) : List Nat :=
  match dynamic_strtab_addr_ with
  | none => []
  | some strtab =>
    fieldReads (dynph + c.off_p_offset) c.word ++
    match readLE data (dynph + c.off_p_offset) c.word with
    | .ok p_offset => neededLoopReads c data strtab p_offset (data.length + 1) 0
    | _ => []

/-- The offsets `loadMapped` reads, in the order it reads them. -/
def loadMappedReads (c : ElfClass) (data : Bytes) : List Nat :=
  findDynamicReads c data ++
  match findDynamic c data with
  | .ok (phdr_, dynph) =>
    loadDynamicStrtabReads c data phdr_ dynph ++
    match loadDynamicStrtab c data phdr_ dynph with
    | .ok strtab => loadDynamicNeededReads c data strtab dynph
    | _ => []
  | _ => []

/-- The offsets into the mapping that `load_elf` reads, in the order it reads
them; none when the file is not opened or not mapped. -/
def load_elfReads (c : ElfClass) (fs : FS) (filename : Bytes) : List Nat :=
  match fs filename with
  | none => []
  | some data => if data.length = 0 then [] else loadMappedReads c data

/-- An ELF64 header alone, 64 bytes, that places a table of one program header
at offset 1048576. -/
def farTableFile : Bytes := ehdr64 1048576 56 1

/-- A machine with the one file `prog`, whose contents are `farTableFile`. -/
def fsFarTable : FS := fun path => if path = prog then some farTableFile else none

/-- The structures `load_elf` follows lie in the file `data`, whose header
gives `e_phoff`, `e_phentsize` and `e_phnum`: the three fields of the file
header; the program header table, with entries that hold an `ElfXX_Phdr` and
fewer than `2^31` bytes in all; for every header of type `PT_DYNAMIC`, its
dynamic table up to `DT_NULL`; and, when that table has exactly one
`DT_STRTAB` entry, the NUL of the name of every `DT_NEEDED` entry, at the
offset the parser computes with `p_vaddr` and `p_offset` of program header 0. -/
structure StructuresInFile (c : ElfClass) (data : Bytes) (e_phoff e_phentsize e_phnum : Nat) :
    Prop where
  length : data.length < ptrMod
  phoff : readLE data c.off_e_phoff c.word = Outcome.ok e_phoff
  phentsize : readLE data c.off_e_phentsize 2 = Outcome.ok e_phentsize
  phnum : readLE data c.off_e_phnum 2 = Outcome.ok e_phnum
  entsize : c.sizeof_Phdr ≤ e_phentsize
  table : e_phoff + e_phentsize * e_phnum ≤ data.length
  small : e_phentsize * e_phnum < 2 ^ 31
  dynamic : ∀ i, i < e_phnum →
    readLE data (e_phoff + e_phentsize * i) 4 = Outcome.ok PT_DYNAMIC →
    ∃ dyntab ents,
      readLE data (e_phoff + e_phentsize * i + c.off_p_offset) c.word = Outcome.ok dyntab ∧
      dynTable c data dyntab = some ents ∧
      ∀ d_ptr v o, entriesWith DT_STRTAB ents = [d_ptr] →
        readLE data (e_phoff + c.off_p_vaddr) c.word = Outcome.ok v →
        readLE data (e_phoff + c.off_p_offset) c.word = Outcome.ok o →
        ∀ d_val ∈ entriesWith DT_NEEDED ents,
          0 ∈ data.drop ((offsetDelta c d_ptr v o + d_val) % ptrMod)

/-! ## `LoadElfFile`

`LoadElfFile` owns the two walkers: each is constructed right before its
`loadMain` is called and destroyed when `LoadElfFile` returns, and the
destructor of a walker that has a pool waits for the pool. -/

/-- A run of `LoadElfFile` that ends.  `LoadElfFile fs paths_ filename classes
result` says: there is a run that calls `loadMain` for the classes `classes`,
in this order, and ends with `result`, which is `some value` when
`LoadElfFile` returns `value` and `none` when the run ends before
`LoadElfFile` returns, at a failed assertion or at a read outside a file.  A `LibPreloader` whose `loadMain` returned true is destroyed before
`LoadElfFile` returns, and its destructor waits in `pool_->Wait()` for the
jobs of its pool; the run of each `LibPreloader` is a run of `Walk.Step`.
`paths_` is the list both walkers split from `kPaths`. -/
inductive LoadElfFile (fs : FS) (paths_ : List Bytes) (filename : Bytes) :
    List Nat → Option Bool → Prop
  /-- `p32.loadMain` returns true, `~LibPreloader` of `p32` comes back from
  `Wait`, `LoadElfFile` returns true -/
  | first (s : Walk) :
    Walk.Reachable elf32 fs paths_ filename s → s.caller = Caller.done →
    LoadElfFile fs paths_ filename [ELFCLASS32] (some true)
  /-- the run ends in `p32.loadMain` or in a job of the pool of `p32` -/
  | first_dies (s : Walk) :
    Walk.Reachable elf32 fs paths_ filename s → s.crashed = true →
    LoadElfFile fs paths_ filename [ELFCLASS32] none
  /-- `p32.loadMain` returns false, `p64.loadMain` returns true, `~LibPreloader`
  of `p64` comes back from `Wait`, `LoadElfFile` returns true -/
  | second (s t : Walk) :
    Walk.Reachable elf32 fs paths_ filename s → s.caller = Caller.returned false →
    Walk.Reachable elf64 fs paths_ filename t → t.caller = Caller.done →
    LoadElfFile fs paths_ filename [ELFCLASS32, ELFCLASS64] (some true)
  /-- both calls of `loadMain` return false, `LoadElfFile` returns false -/
  | second_false (s t : Walk) :
    Walk.Reachable elf32 fs paths_ filename s → s.caller = Caller.returned false →
    Walk.Reachable elf64 fs paths_ filename t → t.caller = Caller.returned false →
    LoadElfFile fs paths_ filename [ELFCLASS32, ELFCLASS64] (some false)
  /-- `p32.loadMain` returns false, and the run ends in `p64.loadMain` or in a
  job of the pool of `p64` -/
  | second_dies (s t : Walk) :
    Walk.Reachable elf32 fs paths_ filename s → s.caller = Caller.returned false →
    Walk.Reachable elf64 fs paths_ filename t → t.crashed = true →
    LoadElfFile fs paths_ filename [ELFCLASS32, ELFCLASS64] none

/-- How far the caller thread is, against what `load_elf` does on the root:
before and after a `loadMain` that returns false no job exists. -/
def Walk.Phase (c : ElfClass) (fs : FS) (filename : Bytes) (s : Walk) : Prop :=
  match s.caller with
  | Caller.parse =>
    s.jobs_ = [] ∧ (∀ w ∈ s.workers, w = Worker.idle) ∧
    (s.crashed = true → load_elf c fs filename ≠ Outcome.fail)
  | Caller.returned false =>
    s.jobs_ = [] ∧ (∀ w ∈ s.workers, w = Worker.idle) ∧
    load_elf c fs filename = Outcome.fail ∧ s.crashed = false
  | _ => ∃ needed, load_elf c fs filename = Outcome.ok needed

/-- The walk of a root whose `load_elf` returns false: `loadMain` has returned
false and no pool exists. -/
def walkAlone32 : Walk := { Walk.init with caller := Caller.returned false }

/-- A machine with `prog` and an empty file `/lib/libc.so.6`. -/
def fsProgEmptyLib : FS := fun path =>
  if path = prog then some progFile
  else if path = slash_lib ++ [slash] ++ libc_so_6 then some []
  else none

/-- The walk of `prog` by the 64-bit walker on `fsProgEmptyLib`, after the job
`load(libc.so.6)` has failed `assert(mem_ != MAP_FAILED)`. -/
def walkEmptyLibDead : Walk where
  jobs_ := [libm_so_6]
  running_ := 1
  loaded_ := [libc_so_6]
  stats_ := [prog]
  workers := Worker.probing libc_so_6 :: List.replicate 7 Worker.idle
  caller := Caller.returned true
  crashed := true
  posted := [(none, libc_so_6), (none, libm_so_6)]
  bodies := [libc_so_6]

/-! # Theorems -/

/-! ## Sequencing -/

@[simp] theorem Outcome.ok_bind {α β : Type} (a : α) (f : α → Outcome β) :
    (Outcome.ok a >>= f) = f a := rfl

@[simp] theorem Outcome.fail_bind {α β : Type} (f : α → Outcome β) :
    ((Outcome.fail : Outcome α) >>= f) = Outcome.fail := rfl

@[simp] theorem Outcome.abort_bind {α β : Type} (f : α → Outcome β) :
    ((Outcome.abort : Outcome α) >>= f) = Outcome.abort := rfl

@[simp] theorem Outcome.fault_bind {α β : Type} (f : α → Outcome β) :
    ((Outcome.fault : Outcome α) >>= f) = Outcome.fault := rfl

@[simp] theorem Outcome.pure_eq {α : Type} (a : α) : (pure a : Outcome α) = Outcome.ok a := rfl

/-! ## `load_elf`: the checks before the header is read -/

theorem readByte_of_get? {data : Bytes} {off b : Nat} (h : data.get? off = some b) :
    readByte data off = Outcome.ok b := by
  unfold readByte
  rw [h]

/-- A mapped file that starts with the magic bytes passes the four `ASSERT_EQ`. -/
theorem checkMagic_of_take {data : Bytes} (h : data.take 4 = [127, 69, 76, 70]) :
    checkMagic data = Outcome.ok () := by
  rcases data with _ | ⟨a0, _ | ⟨a1, _ | ⟨a2, _ | ⟨a3, rest⟩⟩⟩⟩ <;> simp at h
  obtain ⟨rfl, rfl, rfl, rfl⟩ := h
  simp [checkMagic, readByte, ASSERT_EQ]

/-- A file of four bytes or more that does not start with the magic bytes fails
one of the four `ASSERT_EQ`. -/
theorem checkMagic_abort {data : Bytes} (hlen : 4 ≤ data.length)
    (h : data.take 4 ≠ [127, 69, 76, 70]) : checkMagic data = Outcome.abort := by
  rcases data with _ | ⟨a0, _ | ⟨a1, _ | ⟨a2, _ | ⟨a3, rest⟩⟩⟩⟩ <;> simp at hlen
  simp only [List.take_succ_cons, List.take_zero, ne_eq, List.cons.injEq, and_true,
    not_and] at h
  simp only [checkMagic, readByte, ASSERT_EQ, List.get?_cons_zero, List.get?_cons_succ,
    Outcome.ok_bind]
  by_cases h0 : a0 = 127
  · by_cases h1 : a1 = 69
    · by_cases h2 : a2 = 76
      · have h3 := h h0 h1 h2
        simp [h0, h1, h2, h3]
      · simp [h0, h1, h2]
    · simp [h0, h1]
  · simp [h0]

/-- With the magic bytes in place and another class byte, `findDynamic` ends in
`return false`. -/
theorem findDynamic_wrong_class (c : ElfClass) {data : Bytes} {b : Nat}
    (hmagic : data.take 4 = [127, 69, 76, 70]) (hb : data.get? EI_CLASS = some b)
    (hne : b ≠ c.ELFCLASSXX) : findDynamic c data = Outcome.fail := by
  simp [findDynamic, checkMagic_of_take hmagic, readByte_of_get? hb, hne]

theorem loadMapped_wrong_class (c : ElfClass) {data : Bytes} {b : Nat}
    (hmagic : data.take 4 = [127, 69, 76, 70]) (hb : data.get? EI_CLASS = some b)
    (hne : b ≠ c.ELFCLASSXX) : loadMapped c data = Outcome.fail := by
  simp [loadMapped, findDynamic_wrong_class c hmagic hb hne]

theorem loadMapped_bad_magic (c : ElfClass) {data : Bytes} (hlen : 4 ≤ data.length)
    (h : data.take 4 ≠ [127, 69, 76, 70]) : loadMapped c data = Outcome.abort := by
  simp [loadMapped, findDynamic, checkMagic_abort hlen h]

/-- C3, as the code has it: for every file that can be opened, starts with the
four magic bytes and has a class byte other than the one the parser is
instantiated for, `load_elf` returns false; no assertion fires. -/
theorem load_elf_wrong_class (c : ElfClass) (fs : FS) (filename data : Bytes) (b : Nat)
    (hopen : fs filename = some data) (hmagic : data.take 4 = [127, 69, 76, 70])
    (hb : data.get? EI_CLASS = some b) (hne : b ≠ c.ELFCLASSXX) :
    load_elf c fs filename = Outcome.fail := by
  have hlen : data.length ≠ 0 := by
    intro h0
    rw [List.length_eq_zero] at h0
    subst h0
    simp at hmagic
  simp [load_elf, hopen, hlen, loadMapped_wrong_class c hmagic hb hne]

/-- The 64-bit file `progFile` under the 32-bit parser. -/
theorem load_elf_wrong_class_witness :
    load_elf elf32 fsAlone prog = Outcome.fail :=
  load_elf_wrong_class elf32 fsAlone prog progFile 2 (by decide) (by decide) (by decide)
    (by decide)

/-- C3 as stated fails: the shell script has the class byte 105, which is not
`ELFCLASS64`, and `load_elf` of the 64-bit parser does not return false on it:
the first `ASSERT_EQ` aborts the process. -/
theorem load_elf_wrong_class_aborts :
    scriptFile.get? EI_CLASS = some 105 ∧ 105 ≠ elf64.ELFCLASSXX ∧
    load_elf elf64 fsScripts prog = Outcome.abort ∧
    load_elf elf64 fsScripts prog ≠ Outcome.fail := by
  decide

/-! ## `load`: what a candidate path can do to the prefix loop -/

theorem load_elf_not_open (c : ElfClass) {fs : FS} {filename : Bytes}
    (h : fs filename = none) : load_elf c fs filename = Outcome.fail := by
  simp [load_elf, h]

theorem load_elf_empty (c : ElfClass) {fs : FS} {filename : Bytes}
    (h : fs filename = some []) : load_elf c fs filename = Outcome.abort := by
  simp [load_elf, h]

theorem load_elf_bad_magic (c : ElfClass) {fs : FS} {filename data : Bytes}
    (h : fs filename = some data) (hlen : 4 ≤ data.length)
    (hmagic : data.take 4 ≠ [127, 69, 76, 70]) : load_elf c fs filename = Outcome.abort := by
  have h0 : data.length ≠ 0 := by omega
  simp [load_elf, h, h0, loadMapped_bad_magic c hlen hmagic]

theorem loadBody_cons_fail (c : ElfClass) (fs : FS) (name path : Bytes) (rest : List Bytes)
    (h : load_elf c fs (path ++ [slash] ++ name) = Outcome.fail) :
    loadBody c fs name (path :: rest) =
      match loadBody c fs name rest with
      | Outcome.ok r => Outcome.ok ⟨(path ++ [slash] ++ name) :: r.tried, r.posts⟩
      | o => o := by
  simp only [loadBody, h]

theorem loadBody_cons_abort (c : ElfClass) (fs : FS) (name path : Bytes) (rest : List Bytes)
    (h : load_elf c fs (path ++ [slash] ++ name) = Outcome.abort) :
    loadBody c fs name (path :: rest) = Outcome.abort := by
  simp only [loadBody, h]

/-- C4, as the code has it: a candidate path that cannot be opened is a probe
miss (`load_elf` returns false and the loop goes on with the next prefix); a
candidate that is opened and is empty, or has four bytes or more and not the
magic bytes, fails an assertion in `load_elf`, and the loop does not go on. -/
theorem loadBody_candidate (c : ElfClass) (fs : FS) (name path : Bytes) (rest : List Bytes) :
    (fs (path ++ [slash] ++ name) = none →
      load_elf c fs (path ++ [slash] ++ name) = Outcome.fail ∧
      loadBody c fs name (path :: rest) =
        match loadBody c fs name rest with
        | Outcome.ok r => Outcome.ok ⟨(path ++ [slash] ++ name) :: r.tried, r.posts⟩
        | o => o) ∧
    (fs (path ++ [slash] ++ name) = some [] →
      load_elf c fs (path ++ [slash] ++ name) = Outcome.abort ∧
      loadBody c fs name (path :: rest) = Outcome.abort) ∧
    (∀ data, fs (path ++ [slash] ++ name) = some data → 4 ≤ data.length →
      data.take 4 ≠ [127, 69, 76, 70] →
      load_elf c fs (path ++ [slash] ++ name) = Outcome.abort ∧
      loadBody c fs name (path :: rest) = Outcome.abort) := by
  refine ⟨fun h => ?_, fun h => ?_, fun data h hlen hmagic => ?_⟩
  · exact ⟨load_elf_not_open c h, loadBody_cons_fail c fs name path rest (load_elf_not_open c h)⟩
  · exact ⟨load_elf_empty c h, loadBody_cons_abort c fs name path rest (load_elf_empty c h)⟩
  · exact ⟨load_elf_bad_magic c h hlen hmagic,
      loadBody_cons_abort c fs name path rest (load_elf_bad_magic c h hlen hmagic)⟩

/-- The three cases of `loadBody_candidate` on machines that have them: no
library at all, an empty `/lib/libc.so.6`, a shell script at every path. -/
theorem loadBody_candidate_witness :
    (load_elf elf64 fsAlone (slash_lib ++ [slash] ++ libc_so_6) = Outcome.fail ∧
      loadBody elf64 fsAlone libc_so_6 [slash_lib, slash_lib] =
        match loadBody elf64 fsAlone libc_so_6 [slash_lib] with
        | Outcome.ok r => Outcome.ok ⟨(slash_lib ++ [slash] ++ libc_so_6) :: r.tried, r.posts⟩
        | o => o) ∧
    (load_elf elf64 fsEmptyLib (slash_lib ++ [slash] ++ libc_so_6) = Outcome.abort ∧
      loadBody elf64 fsEmptyLib libc_so_6 [slash_lib, slash_lib] = Outcome.abort) ∧
    (load_elf elf64 fsScripts (slash_lib ++ [slash] ++ libc_so_6) = Outcome.abort ∧
      loadBody elf64 fsScripts libc_so_6 [slash_lib, slash_lib] = Outcome.abort) :=
  ⟨(loadBody_candidate elf64 fsAlone libc_so_6 slash_lib [slash_lib]).1 (by decide),
   (loadBody_candidate elf64 fsEmptyLib libc_so_6 slash_lib [slash_lib]).2.1 (by decide),
   (loadBody_candidate elf64 fsScripts libc_so_6 slash_lib [slash_lib]).2.2 scriptFile
     (by decide) (by decide) (by decide)⟩

/-- C4 as stated fails: with an empty file at `/lib/libc.so.6` the probe of
that candidate is no miss: `load_elf` aborts the process at
`assert(mem_ != MAP_FAILED)`, and the loop over the prefixes `/lib`, `/lib` does
not reach the second one. -/
theorem loadBody_empty_candidate_aborts :
    fsEmptyLib (slash_lib ++ [slash] ++ libc_so_6) = some [] ∧
    load_elf elf64 fsEmptyLib (slash_lib ++ [slash] ++ libc_so_6) = Outcome.abort ∧
    loadBody elf64 fsEmptyLib libc_so_6 [slash_lib, slash_lib] = Outcome.abort := by
  decide

/-! ## `load`: the first prefix that parses wins -/

theorem loadBody_cons_ok (c : ElfClass) (fs : FS) (name path : Bytes) (rest : List Bytes)
    (needed : List Bytes) (h : load_elf c fs (path ++ [slash] ++ name) = Outcome.ok needed) :
    loadBody c fs name (path :: rest) = Outcome.ok ⟨[path ++ [slash] ++ name], needed⟩ := by
  simp only [loadBody, h]

/-- C6: when `load_elf` returns false for `prefix + "/" + name` at every prefix
of `before` and returns true with the list `needed` at the prefix `path`, the
loop of `load` over `before ++ path :: after` gives `load_elf` exactly the
candidates of `before` and of `path`, in this order, and posts exactly the
entries of `needed`, in list order; what is under the prefixes of `after` is
not looked at. -/
theorem loadBody_first_match (c : ElfClass) (fs : FS) (name path : Bytes)
    (before after needed : List Bytes)
    (hmiss : ∀ q ∈ before, load_elf c fs (q ++ [slash] ++ name) = Outcome.fail)
    (hhit : load_elf c fs (path ++ [slash] ++ name) = Outcome.ok needed) :
    loadBody c fs name (before ++ path :: after) =
      Outcome.ok ⟨(before ++ [path]).map (fun q => q ++ [slash] ++ name), needed⟩ := by
  induction before with
  | nil => simpa using loadBody_cons_ok c fs name path after needed hhit
  | cons q qs ih =>
    have hq := hmiss q (List.mem_cons_self q qs)
    have ih1 := ih (fun r hr => hmiss r (List.mem_cons_of_mem q hr))
    rw [List.cons_append, loadBody_cons_fail c fs name q _ hq, ih1]
    simp

/-- On the machine `fsLibs` with the prefixes `prog`, `/lib`, `/lib`: there is
no `prog/libm.so.6`, `/lib/libm.so.6` parses and needs `libc.so.6`; the third
prefix is not tried. -/
theorem loadBody_first_match_witness :
    loadBody elf64 fsLibs libm_so_6 ([prog] ++ slash_lib :: [slash_lib]) =
      Outcome.ok ⟨([prog] ++ [slash_lib]).map (fun q => q ++ [slash] ++ libm_so_6),
        [libc_so_6]⟩ :=
  loadBody_first_match elf64 fsLibs libm_so_6 slash_lib [prog] [slash_lib] [libc_so_6]
    (by decide) (by decide)

/-! ## The two loops over the dynamic table -/

theorem entriesWith_cons_eq (tag d_un : Nat) (ents : List (Nat × Nat)) :
    entriesWith tag ((tag, d_un) :: ents) = d_un :: entriesWith tag ents := by
  simp [entriesWith]

theorem entriesWith_cons_ne {tag t : Nat} (d_un : Nat) (ents : List (Nat × Nat)) (h : t ≠ tag) :
    entriesWith tag ((t, d_un) :: ents) = entriesWith tag ents := by
  simp [entriesWith, h]

theorem strtabLoop_of_dynEntries (c : ElfClass) (data : Bytes) (phdr_ dyntab x v o : Nat)
    (h0 : readLE data phdr_ c.sizeof_Phdr = Outcome.ok x)
    (hv : readLE data (phdr_ + c.off_p_vaddr) c.word = Outcome.ok v)
    (ho : readLE data (phdr_ + c.off_p_offset) c.word = Outcome.ok o) :
    ∀ (fuel i : Nat) (ents : List (Nat × Nat)) (st : StrtabState),
      dynEntries c data dyntab fuel i = some ents →
      strtabLoop c data phdr_ dyntab fuel i st =
        strtabResult c v o st (entriesWith DT_STRTAB ents) := by
  intro fuel
  induction fuel with
  | zero => intro i ents st h; simp [dynEntries] at h
  | succ fuel ih =>
    intro i ents st h
    simp only [dynEntries] at h
    simp only [strtabLoop]
    rcases htag : readLE data ((dyntab + i * c.sizeof_Dyn) % ptrMod) c.word with t | _ | _ | _ <;>
      simp only [htag] at h <;> try (simp only [reduceCtorEq] at h)
    by_cases hnull : t = DT_NULL
    · simp only [hnull, if_true, Option.some.injEq] at h
      subst h
      simp [hnull, entriesWith, strtabResult]
    · simp only [hnull, if_false] at h
      rcases hun : readLE data (((dyntab + i * c.sizeof_Dyn) % ptrMod + c.word) % ptrMod) c.word
        with u | _ | _ | _ <;> simp only [hun] at h <;> try (simp only [reduceCtorEq] at h)
      rcases hrest : dynEntries c data dyntab fuel (i + 1) with _ | rest <;>
        simp only [hrest] at h <;> try (simp only [reduceCtorEq] at h)
      simp only [Option.some.injEq] at h
      subst h
      by_cases hs : t = DT_STRTAB
      · subst hs
        simp only [hnull, if_false, if_true, h0, hv, ho, entriesWith_cons_eq, strtabResult]
        by_cases hf : st.found = true
        · simp [hf]
        · simp only [hf]
          exact ih (i + 1) rest _ hrest
      · simp only [hnull, hs, if_false, entriesWith_cons_ne u rest hs]
        exact ih (i + 1) rest st hrest


theorem namesAt_cons (data : Bytes) (strtab d_val : Nat) (rest : List Nat) :
    namesAt data strtab (d_val :: rest) =
      match cstr data ((strtab + d_val) % ptrMod) with
      | Outcome.ok name =>
        match namesAt data strtab rest with
        | Outcome.ok names => Outcome.ok (name :: names)
        | _ => Outcome.fault
      | _ => Outcome.fault := rfl

theorem neededLoop_of_dynEntries (c : ElfClass) (data : Bytes) (strtab dyntab : Nat) :
    ∀ (fuel i : Nat) (ents : List (Nat × Nat)) (acc : List Bytes),
      dynEntries c data dyntab fuel i = some ents →
      neededLoop c data strtab dyntab fuel i acc =
        match namesAt data strtab (entriesWith DT_NEEDED ents) with
        | Outcome.ok names => Outcome.ok (acc ++ names)
        | _ => Outcome.fault := by
  intro fuel
  induction fuel with
  | zero => intro i ents acc h; simp [dynEntries] at h
  | succ fuel ih =>
    intro i ents acc h
    simp only [dynEntries] at h
    simp only [neededLoop]
    rcases htag : readLE data ((dyntab + i * c.sizeof_Dyn) % ptrMod) c.word with t | _ | _ | _ <;>
      simp only [htag] at h <;> try (simp only [reduceCtorEq] at h)
    by_cases hnull : t = DT_NULL
    · simp only [hnull, if_true, Option.some.injEq] at h
      subst h
      simp [hnull, entriesWith, namesAt]
    · simp only [hnull, if_false] at h
      rcases hun : readLE data (((dyntab + i * c.sizeof_Dyn) % ptrMod + c.word) % ptrMod) c.word
        with u | _ | _ | _ <;> simp only [hun] at h <;> try (simp only [reduceCtorEq] at h)
      rcases hrest : dynEntries c data dyntab fuel (i + 1) with _ | rest <;>
        simp only [hrest] at h <;> try (simp only [reduceCtorEq] at h)
      simp only [Option.some.injEq] at h
      subst h
      by_cases hs : t = DT_NEEDED
      · subst hs
        simp only [hnull, if_false, if_true]
        rw [entriesWith_cons_eq, namesAt_cons]
        rcases hname : cstr data ((strtab + u) % ptrMod) with name | _ | _ | _ <;> simp only []
        rw [ih (i + 1) rest _ hrest]
        generalize namesAt data strtab (entriesWith DT_NEEDED rest) = r
        rcases r with names | _ | _ | _ <;> simp
      · simp only [hnull, hs, if_false, entriesWith_cons_ne u rest hs]
        exact ih (i + 1) rest acc hrest

theorem namesAt_ne_abort (data : Bytes) (strtab : Nat) (vals : List Nat) :
    namesAt data strtab vals ≠ Outcome.abort := by
  cases vals with
  | nil => simp [namesAt]
  | cons v rest =>
    simp only [namesAt]
    rcases cstr data ((strtab + v) % ptrMod) with name | _ | _ | _ <;> simp only [] <;> try simp
    rcases namesAt data strtab rest with names | _ | _ | _ <;> simp

theorem namesAt_ne_fail (data : Bytes) (strtab : Nat) (vals : List Nat) :
    namesAt data strtab vals ≠ Outcome.fail := by
  cases vals with
  | nil => simp [namesAt]
  | cons v rest =>
    simp only [namesAt]
    rcases cstr data ((strtab + v) % ptrMod) with name | _ | _ | _ <;> simp only [] <;> try simp
    rcases namesAt data strtab rest with names | _ | _ | _ <;> simp

theorem loadDynamicNeeded_of_dynTable (c : ElfClass) (data : Bytes) (strtab dynph dyntab : Nat)
    (ents : List (Nat × Nat))
    (hoff : readLE data (dynph + c.off_p_offset) c.word = Outcome.ok dyntab)
    (hents : dynTable c data dyntab = some ents) :
    loadDynamicNeeded c data (some strtab) dynph =
      namesAt data strtab (entriesWith DT_NEEDED ents) := by
  simp only [loadDynamicNeeded, hoff]
  rw [neededLoop_of_dynEntries c data strtab dyntab _ 0 ents [] hents]
  have := namesAt_ne_abort data strtab (entriesWith DT_NEEDED ents)
  have hf := namesAt_ne_fail data strtab (entriesWith DT_NEEDED ents)
  rcases h : namesAt data strtab (entriesWith DT_NEEDED ents) with names | _ | _ | _ <;> simp_all


theorem readLE_of_le (data : Bytes) : ∀ (n off : Nat), off + n ≤ data.length →
    ∃ v, readLE data off n = Outcome.ok v := by
  intro n
  induction n with
  | zero => intro off _; exact ⟨0, rfl⟩
  | succ n ih =>
    intro off h
    obtain ⟨r, hr⟩ := ih (off + 1) (by omega)
    have hlt : off < data.length := by omega
    refine ⟨data[off] + 256 * r, ?_⟩
    simp [readLE, readByte, List.getElem?_eq_getElem hlt, hr]

theorem strtabResult_fresh (c : ElfClass) (v o : Nat) (ptrs : List Nat) :
    strtabResult c v o ⟨false, none⟩ ptrs =
      match ptrs with
      | [] => Outcome.ok ⟨false, none⟩
      | [d_ptr] => Outcome.ok ⟨true, some (offsetDelta c d_ptr v o)⟩
      | _ :: _ :: _ => Outcome.abort := by
  rcases ptrs with _ | ⟨p, _ | ⟨q, rest⟩⟩ <;> simp [strtabResult]

theorem loadDynamicStrtab_of_dynTable (c : ElfClass) (data : Bytes)
    (phdr_ dynph dyntab v o : Nat) (ents : List (Nat × Nat))
    (hoff : readLE data (dynph + c.off_p_offset) c.word = Outcome.ok dyntab)
    (hents : dynTable c data dyntab = some ents)
    (h0 : phdr_ + c.sizeof_Phdr ≤ data.length)
    (hv : readLE data (phdr_ + c.off_p_vaddr) c.word = Outcome.ok v)
    (ho : readLE data (phdr_ + c.off_p_offset) c.word = Outcome.ok o) :
    loadDynamicStrtab c data phdr_ dynph =
      match entriesWith DT_STRTAB ents with
      | [d_ptr] => Outcome.ok (some (offsetDelta c d_ptr v o))
      | _ => Outcome.abort := by
  obtain ⟨x, hx⟩ := readLE_of_le data c.sizeof_Phdr phdr_ h0
  simp only [loadDynamicStrtab, hoff]
  rw [strtabLoop_of_dynEntries c data phdr_ dyntab x v o hx hv ho _ 0 ents _ hents,
    strtabResult_fresh]
  rcases entriesWith DT_STRTAB ents with _ | ⟨p, _ | ⟨q, rest⟩⟩ <;> simp

theorem findDynamic_nonempty (c : ElfClass) (data : Bytes) (r : Nat × Nat)
    (h : findDynamic c data = Outcome.ok r) : data.length ≠ 0 := by
  intro h0
  rw [List.length_eq_zero] at h0
  subst h0
  simp [findDynamic, checkMagic, readByte] at h

/-- C10: for every file that passes the checks of magic, class and encoding
and has a `PT_DYNAMIC` header, whose dynamic table ends with `DT_NULL` in the
file and whose program header 0 lies in the file: `load_elf` ends in an
assertion failure exactly when the number of `DT_STRTAB` entries before
`DT_NULL` is not one; with one such entry, every `DT_NEEDED` entry, before or
after it in the table, is made a name with the string table offset of that
entry. -/
theorem load_elf_strtab_count (c : ElfClass) (fs : FS) (filename data : Bytes)
    (phdr_ dynph dyntab v o : Nat) (ents : List (Nat × Nat))
    (hopen : fs filename = some data)
    (hfind : findDynamic c data = Outcome.ok (phdr_, dynph))
    (hoff : readLE data (dynph + c.off_p_offset) c.word = Outcome.ok dyntab)
    (hents : dynTable c data dyntab = some ents)
    (h0 : phdr_ + c.sizeof_Phdr ≤ data.length)
    (hv : readLE data (phdr_ + c.off_p_vaddr) c.word = Outcome.ok v)
    (ho : readLE data (phdr_ + c.off_p_offset) c.word = Outcome.ok o) :
    (load_elf c fs filename = Outcome.abort ↔ (entriesWith DT_STRTAB ents).length ≠ 1) ∧
    (∀ d_ptr, entriesWith DT_STRTAB ents = [d_ptr] →
      load_elf c fs filename =
        namesAt data (offsetDelta c d_ptr v o) (entriesWith DT_NEEDED ents)) := by
  have hne := findDynamic_nonempty c data _ hfind
  have hload : load_elf c fs filename =
      match entriesWith DT_STRTAB ents with
      | [d_ptr] => namesAt data (offsetDelta c d_ptr v o) (entriesWith DT_NEEDED ents)
      | _ => Outcome.abort := by
    simp only [load_elf, hopen, hne, if_false, loadMapped, hfind, Outcome.ok_bind]
    rw [loadDynamicStrtab_of_dynTable c data phdr_ dynph dyntab v o ents hoff hents h0 hv ho]
    rcases entriesWith DT_STRTAB ents with _ | ⟨p, _ | ⟨q, rest⟩⟩
    · rfl
    · simp only [Outcome.ok_bind]
      exact loadDynamicNeeded_of_dynTable c data _ dynph dyntab ents hoff hents
    · rfl
  rw [hload]
  rcases entriesWith DT_STRTAB ents with _ | ⟨p, _ | ⟨q, rest⟩⟩
  · simp
  · simpa using namesAt_ne_abort data _ _
  · simp

/-- On `progFile`: one `DT_STRTAB` entry, after the two `DT_NEEDED` entries. -/
theorem load_elf_strtab_count_witness :
    (load_elf elf64 fsAlone prog = Outcome.abort ↔
      (entriesWith DT_STRTAB [(1, 1), (1, 11), (5, 240)]).length ≠ 1) ∧
    (∀ d_ptr, entriesWith DT_STRTAB [(1, 1), (1, 11), (5, 240)] = [d_ptr] →
      load_elf elf64 fsAlone prog =
        namesAt progFile (offsetDelta elf64 d_ptr 0 0)
          (entriesWith DT_NEEDED [(1, 1), (1, 11), (5, 240)])) :=
  load_elf_strtab_count elf64 fsAlone prog progFile 64 120 176 0 0 [(1, 1), (1, 11), (5, 240)]
    (by decide) (by decide) (by decide) (by decide) (by decide) (by decide) (by decide)

/-! ## A well-formed file whose program header 0 is not loadable -/

theorem stackFirstHead_length : stackFirstHead.length = 304 := by decide

theorem stackFirstFile_length : stackFirstFile.length = 4400 := by
  unfold stackFirstFile
  rw [List.length_append, List.length_append, List.length_replicate, stackFirstHead_length]
  rfl

theorem stackFirstFile_drop : stackFirstFile.drop 4329 = stackFirstTail := by
  unfold stackFirstFile
  refine List.drop_left' ?_
  rw [List.length_append, List.length_replicate, stackFirstHead_length]

theorem stackFirstFile_cstr : cstr stackFirstFile 4329 = Outcome.ok libx_so_1 := by
  unfold cstr
  rw [stackFirstFile_drop]
  decide

theorem stackFirstFile_findDynamic : findDynamic elf64 stackFirstFile = Outcome.ok (64, 176) := by
  decide

theorem stackFirstFile_dynTable :
    dynTable elf64 stackFirstFile 256 = some [(DT_NEEDED, 1), (DT_STRTAB, 4328)] := by
  unfold dynTable
  rw [stackFirstFile_length]
  decide

theorem stackFirstFile_strtab :
    loadDynamicStrtab elf64 stackFirstFile 64 176 = Outcome.ok (some 4328) := by
  rw [loadDynamicStrtab_of_dynTable elf64 stackFirstFile 64 176 256 0 0 _ (by decide)
    stackFirstFile_dynTable (by rw [stackFirstFile_length]; decide) (by decide) (by decide)]
  decide

theorem stackFirstFile_loadMapped : loadMapped elf64 stackFirstFile = Outcome.ok [libx_so_1] := by
  simp only [loadMapped, stackFirstFile_findDynamic, Outcome.ok_bind, stackFirstFile_strtab]
  rw [loadDynamicNeeded_of_dynTable elf64 stackFirstFile 4328 176 256 _ (by decide)
    stackFirstFile_dynTable]
  have h : (4328 + 1) % ptrMod = 4329 := by decide
  have e : entriesWith DT_NEEDED [(DT_NEEDED, 1), (DT_STRTAB, 4328)] = [1] := by decide
  rw [e, namesAt_cons, h, stackFirstFile_cstr]
  rfl


theorem stackFirstFile_phdrs :
    phdrs64 stackFirstFile =
      some [⟨PT_GNU_STACK, 0, 0, 0⟩, ⟨PT_LOAD, 0, 4096, 4400⟩, ⟨PT_DYNAMIC, 256, 4352, 48⟩] := by
  decide

theorem stackFirstFile_dynamic :
    dynamic64 stackFirstFile = some [(DT_NEEDED, 1), (DT_STRTAB, 4328)] := by
  unfold dynamic64
  rw [stackFirstFile_phdrs]
  exact stackFirstFile_dynTable

theorem stackFirstFile_strtab64 : strtab64 stackFirstFile = some 232 := by
  unfold strtab64
  rw [stackFirstFile_phdrs, stackFirstFile_dynamic]
  decide

theorem stackFirstFile_needed : neededNames64 stackFirstFile = some [libc_so_6] := by
  unfold neededNames64
  rw [stackFirstFile_dynamic, stackFirstFile_strtab64]
  decide

theorem stackFirstFile_bytes : ∀ b ∈ stackFirstFile, b < 256 := by
  have hhead : ∀ b ∈ stackFirstHead, b < 256 := by decide
  have htail : ∀ b ∈ stackFirstTail, b < 256 := by decide
  intro b hb
  unfold stackFirstFile at hb
  rw [List.mem_append, List.mem_append] at hb
  rcases hb with (hb | hb) | hb
  · exact hhead b hb
  · rw [List.eq_of_mem_replicate hb]; decide
  · exact htail b hb

theorem stackFirstFile_wellFormed : WellFormed64 stackFirstFile where
  bytes := stackFirstFile_bytes
  magic := by decide
  cls := by decide
  encoding := by decide
  e_phentsize := by decide
  table := ⟨_, stackFirstFile_phdrs, by decide, by rw [stackFirstFile_length]; decide, by decide⟩
  dynamic := ⟨_, stackFirstFile_dynamic, by decide⟩
  names := ⟨_, stackFirstFile_needed⟩

/-- C1 fails on the code at `stackFirstFile`: the file is a well-formed
little-endian ELF64 dynamically linked file whose one `DT_NEEDED` entry names
`libc.so.6`, and `load_elf` returns true with `GetNeeded()` holding the one name
`libx.so.1`, a string of the program data 4096 bytes after the string table. -/
theorem load_elf_stackFirst :
    WellFormed64 stackFirstFile ∧ neededNames64 stackFirstFile = some [libc_so_6] ∧
    load_elf elf64 fsStackFirst prog = Outcome.ok [libx_so_1] := by
  refine ⟨stackFirstFile_wellFormed, stackFirstFile_needed, ?_⟩
  have hopen : fsStackFirst prog = some stackFirstFile := if_pos rfl
  have hlen : stackFirstFile.length ≠ 0 := by rw [stackFirstFile_length]; decide
  simp only [load_elf, hopen, hlen, if_false]
  exact stackFirstFile_loadMapped

/-- C9 fails on the code at `stackFirstFile`: the file passes the header checks,
its `DT_STRTAB` entry holds the address 4328, header 0 of its table is
`PT_GNU_STACK` with address 0 and offset 0, and its first `PT_LOAD` header has
address 4096 and offset 0.  `loadDynamicStrtab` computes the offset 4328, with
the pair of header 0; the pair of the first `PT_LOAD` header gives 232, where
the string table is. -/
theorem loadDynamicStrtab_stackFirst :
    findDynamic elf64 stackFirstFile = Outcome.ok (64, 176) ∧
    dynamic64 stackFirstFile = some [(DT_NEEDED, 1), (DT_STRTAB, 4328)] ∧
    loadDynamicStrtab elf64 stackFirstFile 64 176 = Outcome.ok (some 4328) ∧
    (phdrs64 stackFirstFile).bind (fun phdrs => fileOffsetFirstLoad phdrs 4328) = some 232 ∧
    strtab64 stackFirstFile = some 232 := by
  refine ⟨stackFirstFile_findDynamic, stackFirstFile_dynamic, stackFirstFile_strtab, ?_,
    stackFirstFile_strtab64⟩
  rw [stackFirstFile_phdrs]
  decide

/-! ## The worker pool -/

theorem filter_busy_replicate_idle (n : Nat) :
    (List.replicate n Executor.idle).filter Executor.busy = [] := by
  induction n with
  | zero => rfl
  | succ n ih => simp [List.replicate_succ, List.filter_cons, Executor.busy, ih]

theorem filter_holdsJob_replicate_idle (n : Nat) :
    (List.replicate n Executor.idle).filter Executor.holdsJob = [] := by
  induction n with
  | zero => rfl
  | succ n ih => simp [List.replicate_succ, List.filter_cons, Executor.holdsJob, ih]

theorem filter_holdsJob_all_idle (es : List Executor) (h : ∀ e ∈ es, e = Executor.idle) :
    es.filter Executor.holdsJob = [] := by
  rw [List.filter_eq_nil_iff]
  intro e he
  rw [h e he]
  simp [Executor.holdsJob]

theorem Pool.poolInv_init (N n : Nat) : Pool.Inv N (Pool.init n) where
  running := by simp [Pool.init, filter_busy_replicate_idle]
  jobs := by simp [Pool.init, filter_holdsJob_replicate_idle, Client.postedCount]
  bound := by intro k h; simp [Pool.init] at h; omega
  quiet := by intro h; exact absurd rfl (h 0)
  value := by intro v h; simp [Pool.init] at h

theorem Pool.poolInv_step (N : Nat) (s t : Pool) (hs : Pool.Inv N s) (h : Pool.Step N s t) :
    Pool.Inv N t := by
  obtain ⟨hrun, hjobs, hbound, hquiet, hvalue⟩ := hs
  cases h with
  | post k hc hk =>
    refine ⟨hrun, ?_, ?_, ?_, ?_⟩
    · simp only [hc, Client.postedCount] at hjobs ⊢
      simp only [List.length_append, List.length_singleton]
      omega
    · intro k2 h2
      simp only [Client.posting.injEq] at h2
      omega
    · intro h2; exact absurd rfl (h2 (k + 1))
    · intro v h2; simp at h2
  | wait hc hj hr =>
    have hnil : s.executors_.filter Executor.busy = [] := by
      rw [← List.length_eq_zero, ← hrun, hr]
    have hidle : ∀ e ∈ s.executors_, e = Executor.idle := by
      intro e he
      rw [List.filter_eq_nil_iff] at hnil
      have := hnil e he
      cases e <;> simp_all [Executor.busy]
    refine ⟨hrun, ?_, ?_, ?_, ?_⟩
    · simpa [hc, Client.postedCount] using hjobs
    · intro k h2; simp at h2
    · intro _; exact ⟨hj, hidle⟩
    · intro v h2; simp at h2
  | read hc =>
    have hq := hquiet (by intro k; rw [hc]; simp)
    refine ⟨hrun, ?_, ?_, ?_, ?_⟩
    · simpa [hc, Client.postedCount] using hjobs
    · intro k h2; simp at h2
    · intro _; exact hq
    · intro v h2
      simp only [Client.read.injEq] at h2
      rw [hq.1, filter_holdsJob_all_idle _ hq.2, hc] at hjobs
      simp [Client.postedCount] at hjobs
      omega
  | pop before after job rest he hj =>
    refine ⟨?_, ?_, hbound, ?_, hvalue⟩
    · simp only [hrun, he, List.filter_append, List.filter_cons, Executor.busy,
        List.length_append, List.length_cons]
      simp
      omega
    · simp only [he, hj, List.filter_append, List.filter_cons, Executor.holdsJob,
        List.length_append, List.length_cons] at hjobs ⊢
      simp at hjobs ⊢
      omega
    · intro h2
      have := (hquiet h2).1
      rw [hj] at this
      simp at this
  | run before after job he =>
    refine ⟨?_, ?_, hbound, ?_, hvalue⟩
    · simp only [hrun, he, List.filter_append, List.filter_cons, Executor.busy,
        List.length_append, List.length_cons]
      simp
    · simp only [he, List.filter_append, List.filter_cons, Executor.holdsJob,
        List.length_append, List.length_cons] at hjobs ⊢
      simp at hjobs ⊢
      omega
    · intro h2
      have := (hquiet h2).2 (Executor.running job) (by rw [he]; simp)
      simp at this
  | finish before after he =>
    refine ⟨?_, ?_, hbound, ?_, hvalue⟩
    · simp only [hrun, he, List.filter_append, List.filter_cons, Executor.busy,
        List.length_append, List.length_cons]
      simp
    · simp only [he, List.filter_append, List.filter_cons, Executor.holdsJob,
        List.length_append, List.length_cons] at hjobs ⊢
      simpa using hjobs
    · intro h2
      have := (hquiet h2).2 Executor.ran (by rw [he]; simp)
      simp at this

theorem Pool.poolInv_reachable (N n : Nat) (s : Pool) (h : Pool.Reachable N n s) : Pool.Inv N s := by
  induction h with
  | init => exact Pool.poolInv_init N n
  | step s t _ hst ih => exact Pool.poolInv_step N s t ih hst

theorem poolAfterTwo_reachable : Pool.Reachable 2 2 poolAfterTwo := by
  have h0 : Pool.Reachable 2 2 (Pool.init 2) := Pool.Reachable.init
  have h1 := Pool.Reachable.step _ _ h0 (Pool.Step.post _ 0 rfl (by decide))
  have h2 := Pool.Reachable.step _ _ h1 (Pool.Step.pop _ [] [Executor.idle] 0 [] rfl rfl)
  have h3 := Pool.Reachable.step _ _ h2 (Pool.Step.post _ 1 rfl (by decide))
  have h4 := Pool.Reachable.step _ _ h3
    (Pool.Step.pop _ [Executor.running 0] [] 1 [] rfl rfl)
  have h5 := Pool.Reachable.step _ _ h4 (Pool.Step.run _ [Executor.running 0] [] 1 rfl)
  have h6 := Pool.Reachable.step _ _ h5 (Pool.Step.run _ [] [Executor.ran] 0 rfl)
  have h7 := Pool.Reachable.step _ _ h6 (Pool.Step.finish _ [] [Executor.ran] rfl)
  have h8 := Pool.Reachable.step _ _ h7 (Pool.Step.finish _ [Executor.idle] [] rfl)
  have h9 := Pool.Reachable.step _ _ h8 (Pool.Step.wait _ rfl rfl rfl)
  have h10 := Pool.Reachable.step _ _ h9 (Pool.Step.read _ rfl)
  exact h10

theorem Pool.reach_posting (N m : Nat) : ∀ k, k ≤ N →
    Pool.Reachable N (m + 1)
      ⟨[], 0, List.replicate (m + 1) Executor.idle, k, Client.posting k⟩ := by
  intro k
  induction k with
  | zero => intro _; exact Pool.Reachable.init
  | succ k ih =>
    intro hk
    have h0 := ih (by omega)
    have h1 := Pool.Reachable.step _ _ h0 (Pool.Step.post _ k rfl (by omega))
    have h2 := Pool.Reachable.step _ _ h1
      (Pool.Step.pop _ [] (List.replicate m Executor.idle) k [] rfl rfl)
    have h3 := Pool.Reachable.step _ _ h2
      (Pool.Step.run _ [] (List.replicate m Executor.idle) k rfl)
    have h4 := Pool.Reachable.step _ _ h3
      (Pool.Step.finish _ [] (List.replicate m Executor.idle) rfl)
    exact h4

theorem Pool.reach_read (N n : Nat) (hn : 1 ≤ n) :
    ∃ t, Pool.Reachable N n t ∧ t.client = Client.read N := by
  obtain ⟨m, rfl⟩ : ∃ m, n = m + 1 := ⟨n - 1, by omega⟩
  have h0 := Pool.reach_posting N m N (le_refl N)
  have h1 := Pool.Reachable.step _ _ h0 (Pool.Step.wait _ rfl rfl rfl)
  have h2 := Pool.Reachable.step _ _ h1 (Pool.Step.read _ rfl)
  exact ⟨_, h2, rfl⟩

/-- C8: a client posts `N` jobs that each increment a shared counter to a pool
of `n ≥ 1` executors, calls `Wait()` and reads the counter.  There is an
execution in which the client gets to read the counter, and in every execution:
when `Wait()` has returned the queue is empty, `running_` is zero, no executor
holds or runs a job and the counter is `N`; the value the client reads is
`N`. -/
theorem Pool.wait_quiescent (N n : Nat) (hn : 1 ≤ n) :
    (∃ t, Pool.Reachable N n t ∧ t.client = Client.read N) ∧
    ∀ s, Pool.Reachable N n s →
      (s.client = Client.waited →
        s.jobs_ = [] ∧ s.running_ = 0 ∧ (∀ e ∈ s.executors_, e = Executor.idle) ∧
        s.counter = N) ∧
      (∀ v, s.client = Client.read v → v = N) := by
  refine ⟨Pool.reach_read N n hn, fun s h => ?_⟩
  obtain ⟨hrun, hjobs, _, hquiet, hvalue⟩ := Pool.poolInv_reachable N n s h
  refine ⟨fun hc => ?_, hvalue⟩
  obtain ⟨hj, hidle⟩ := hquiet (by intro k; rw [hc]; simp)
  have hbusy : s.executors_.filter Executor.busy = [] := by
    rw [List.filter_eq_nil_iff]
    intro e he
    rw [hidle e he]
    simp [Executor.busy]
  refine ⟨hj, by rw [hrun, hbusy]; rfl, hidle, ?_⟩
  rw [hj, filter_holdsJob_all_idle _ hidle, hc] at hjobs
  simpa [Client.postedCount] using hjobs

/-- Two jobs on a pool of two executors: the state `poolAfterTwo` is reached
with the two executors running the jobs side by side, and the value read there
is 2. -/
theorem Pool.wait_quiescent_witness :
    Pool.Reachable 2 2 poolAfterTwo ∧
    ((poolAfterTwo.client = Client.waited →
      poolAfterTwo.jobs_ = [] ∧ poolAfterTwo.running_ = 0 ∧
      (∀ e ∈ poolAfterTwo.executors_, e = Executor.idle) ∧ poolAfterTwo.counter = 2) ∧
    (∀ v, poolAfterTwo.client = Client.read v → v = 2)) :=
  ⟨poolAfterTwo_reachable,
    (Pool.wait_quiescent 2 2 (by decide)).2 poolAfterTwo poolAfterTwo_reachable⟩

/-! ## The walk: every name is probed once -/

theorem mem_statsAssign (stats_ : List Bytes) (name n : Bytes) :
    n ∈ statsAssign stats_ name ↔ n ∈ stats_ ∨ n = name := by
  unfold statsAssign
  split
  · constructor
    · intro h; exact Or.inl h
    · rintro (h | rfl)
      · exact h
      · assumption
  · simp

theorem nodup_statsAssign (stats_ : List Bytes) (name : Bytes) (h : stats_.Nodup) :
    (statsAssign stats_ name).Nodup := by
  unfold statsAssign
  split
  · exact h
  · rename_i hn
    rw [List.nodup_append]
    refine ⟨h, List.nodup_singleton _, ?_⟩
    intro a ha hb
    simp at hb
    subst hb
    exact hn ha

theorem filter_busy_nil_iff (ws : List Worker) :
    ws.filter Worker.busy = [] ↔ ∀ w ∈ ws, w = Worker.idle := by
  rw [List.filter_eq_nil_iff]
  constructor
  · intro h w hw
    have := h w hw
    cases w <;> simp_all [Worker.busy]
  · intro h w hw
    rw [h w hw]
    simp [Worker.busy]

theorem Walk.walkInv_init (c : ElfClass) (fs : FS) (paths_ : List Bytes) (filename : Bytes) :
    Walk.Inv c fs paths_ filename Walk.init where
  bodies_eq := rfl
  nodup := List.nodup_nil
  jobs_posted := by simp [Walk.init]
  start_posted := by
    intro n h
    simp only [Walk.init] at h
    have := List.eq_of_mem_replicate h
    simp at this
  loaded_posted := by simp [Walk.init]
  posted_pending := by simp [Walk.init, Walk.postedNames]
  loaded_stats := by simp [Walk.init]
  stats_nodup := List.nodup_nil
  running := by
    simp only [Walk.init]
    symm
    rw [List.length_eq_zero, filter_busy_nil_iff]
    intro w hw
    exact List.eq_of_mem_replicate hw
  quiet := by simp [Walk.init]
  root := by simp [Walk.init]
  children := by
    intro n rest h
    simp only [Walk.init] at h
    have := List.eq_of_mem_replicate h
    simp at this
  posted_children := by simp [Walk.init]
  alive := by simp [Walk.init]

theorem mem_swap {α : Type} {before after : List α} {x w2 : α} (w1 : α)
    (h : x ∈ before ++ w2 :: after) : x = w2 ∨ x ∈ before ++ w1 :: after := by
  simp only [List.mem_append, List.mem_cons] at h ⊢
  tauto

theorem mem_swap_of_ne {α : Type} {before after : List α} {x w1 : α} (w2 : α)
    (h : x ∈ before ++ w1 :: after) (hne : x ≠ w1) : x ∈ before ++ w2 :: after := by
  simp only [List.mem_append, List.mem_cons] at h ⊢
  tauto

theorem mem_mid {α : Type} (before after : List α) (w : α) : w ∈ before ++ w :: after := by
  simp

theorem busy_length_swap (before after : List Worker) (w1 w2 : Worker)
    (h : w1.busy = w2.busy) :
    ((before ++ w1 :: after).filter Worker.busy).length =
      ((before ++ w2 :: after).filter Worker.busy).length := by
  simp only [List.filter_append, List.filter_cons, h, List.length_append]
  split <;> simp

theorem busy_length_idle (before after : List Worker) (w : Worker) (h : w.busy = true) :
    ((before ++ w :: after).filter Worker.busy).length =
      ((before ++ Worker.idle :: after).filter Worker.busy).length + 1 := by
  have hidle : Worker.idle.busy = false := rfl
  simp only [List.filter_append, List.filter_cons, h, hidle, List.length_append,
    List.length_cons, if_true]
  simp
  omega

theorem Walk.walkInv_step (c : ElfClass) (fs : FS) (paths_ : List Bytes) (filename : Bytes)
    (s t : Walk) (hs : Walk.Inv c fs paths_ filename s)
    (h : Walk.Step c fs paths_ filename s t) : Walk.Inv c fs paths_ filename t := by
  obtain ⟨ha, hb, hc, hd, he, hf, hg, hh, hi, hj, hk, hl, hm, hn⟩ := hs
  cases h with
  | parse_ok needed hcr hcl hload =>
    refine ⟨ha, hb, hc, hd, he, hf, hg, hh, hi, ?_, ?_, hl, hm, ?_⟩
    · intro h; simp at h
    · intro needed2 h2 _ n hn
      rw [hload] at h2
      simp only [Outcome.ok.injEq] at h2
      subst h2
      exact Or.inl hn
    · intro h; simp at h
  | parse_fail hcr hcl hload =>
    refine ⟨ha, hb, hc, hd, he, hf, hg, hh, hi, ?_, ?_, hl, hm, ?_⟩
    · intro h; simp at h
    · intro needed2 h2
      rw [hload] at h2
      simp at h2
    · intro h; simp at h
  | parse_crash hcr hcl hload =>
    refine ⟨ha, hb, hc, hd, he, hf, hg, hh, hi, hj, hk, hl, hm, ?_⟩
    · intro h; rw [hcl] at h; simp at h
  | caller_post name rest hcr hcl =>
    refine ⟨ha, hb, ?_, ?_, ?_, ?_, hg, hh, hi, ?_, ?_, hl, ?_, ?_⟩
    · intro n hn
      simp only [Walk.postedNames, List.map_append, List.mem_append, List.map_cons,
        List.map_nil, List.mem_singleton] at hn ⊢
      rcases hn with hn | hn
      · exact Or.inl (hc n hn)
      · exact Or.inr hn
    · intro n hn
      simp only [Walk.postedNames, List.map_append, List.mem_append]
      exact Or.inl (hd n hn)
    · intro n hn
      simp only [Walk.postedNames, List.map_append, List.mem_append]
      exact Or.inl (he n hn)
    · intro n hn
      simp only [Walk.postedNames, List.map_append, List.mem_append, List.map_cons,
        List.map_nil, List.mem_singleton] at hn ⊢
      rcases hn with hn | hn
      · rcases hf n hn with h | h | h
        · exact Or.inl (Or.inl h)
        · exact Or.inr (Or.inl h)
        · exact Or.inr (Or.inr h)
      · exact Or.inl (Or.inr hn)
    · intro h; simp at h
    · intro needed h2 _ n hn
      have := hk needed h2 (by rw [hcl]; simp) n hn
      simp only [hcl, Caller.pending, List.mem_cons] at this
      simp only [Caller.pending, List.mem_append, List.mem_singleton, Prod.mk.injEq, true_and]
      tauto
    · intro n x hx
      simp only [List.mem_append, List.mem_singleton, Prod.mk.injEq, reduceCtorEq,
        false_and, or_false] at hx
      exact hm n x hx
    · intro h; simp at h
  | caller_record hcr hcl =>
    refine ⟨ha, hb, hc, hd, he, hf, ?_, nodup_statsAssign _ _ hh, hi, ?_, ?_, hl, hm, ?_⟩
    · intro n hn
      rcases hg n hn with h | h
      · exact Or.inl h
      · exact Or.inr ((mem_statsAssign _ _ _).2 (Or.inl h))
    · intro h; simp at h
    · intro needed h2 _ n hn
      have := hk needed h2 (by rw [hcl]; simp) n hn
      simpa [hcl, Caller.pending] using this
    · intro h; simp at h
  | caller_wait hcr hcl hjobs hrun =>
    refine ⟨ha, hb, hc, hd, he, hf, hg, hh, hi, ?_, ?_, hl, hm, ?_⟩
    · intro _
      refine ⟨hjobs, ?_⟩
      rw [← filter_busy_nil_iff, ← List.length_eq_zero, ← hi, hrun]
    · intro needed h2 _ n hn
      have := hk needed h2 (by rw [hcl]; simp) n hn
      simpa [hcl, Caller.pending] using this
    · intro _; exact hcr
  | pop before after name rest hcr hw hjobs =>
    refine ⟨ha, hb, ?_, ?_, he, ?_, ?_, hh, ?_, ?_, hk, ?_, hm, hn⟩
    · intro n hn
      exact hc n (by rw [hjobs]; exact List.mem_cons_of_mem _ hn)
    · intro n hn
      rcases mem_swap Worker.idle hn with h | h
      · simp only [Worker.start.injEq] at h
        subst h
        exact hc n (by rw [hjobs]; exact List.mem_cons_self _ _)
      · exact hd n (by rw [hw]; exact h)
    · intro n hn
      rcases hf n hn with h | h | h
      · rw [hjobs, List.mem_cons] at h
        rcases h with rfl | h
        · exact Or.inr (Or.inl (mem_mid _ _ _))
        · exact Or.inl h
      · rw [hw] at h
        exact Or.inr (Or.inl (mem_swap_of_ne _ h (by simp)))
      · exact Or.inr (Or.inr h)
    · intro n hn
      rcases hg n hn with ⟨w, hwm, hwb⟩ | h
      · rw [hw] at hwm
        refine Or.inl ⟨w, mem_swap_of_ne _ hwm ?_, hwb⟩
        rintro rfl
        simp [Worker.body] at hwb
      · exact Or.inr h
    · show s.running_ + 1 = _
      rw [hi, hw, busy_length_idle before after (Worker.start name) rfl]
    · intro hdone
      have := (hj hdone).1
      rw [hjobs] at this
      simp at this
    · intro n r hn
      rcases mem_swap Worker.idle hn with h | h
      · simp at h
      · exact hl n r (by rw [hw]; exact h)
  | skip before after name hcr hw hmem =>
    refine ⟨ha, hb, hc, ?_, he, ?_, ?_, hh, ?_, ?_, hk, ?_, hm, hn⟩
    · intro n hn
      rcases mem_swap (Worker.start name) hn with h | h
      · simp at h
      · exact hd n (by rw [hw]; exact h)
    · intro n hn
      rcases hf n hn with h | h | h
      · exact Or.inl h
      · by_cases hnn : n = name
        · subst hnn
          exact Or.inr (Or.inr hmem)
        · rw [hw] at h
          exact Or.inr (Or.inl (mem_swap_of_ne _ h (by simpa using hnn)))
      · exact Or.inr (Or.inr h)
    · intro n hn
      rcases hg n hn with ⟨w, hwm, hwb⟩ | h
      · rw [hw] at hwm
        refine Or.inl ⟨w, mem_swap_of_ne _ hwm ?_, hwb⟩
        rintro rfl
        simp [Worker.body] at hwb
      · exact Or.inr h
    · show s.running_ = _
      rw [hi, hw]
      exact busy_length_swap before after _ _ rfl
    · intro hdone
      have := (hj hdone).2 (Worker.start name) (by rw [hw]; exact mem_mid _ _ _)
      simp at this
    · intro n r hn
      rcases mem_swap (Worker.start name) hn with h | h
      · simp at h
      · exact hl n r (by rw [hw]; exact h)
  | claim before after name hcr hw hmem =>
    refine ⟨?_, ?_, hc, ?_, ?_, ?_, ?_, hh, ?_, ?_, hk, ?_, hm, hn⟩
    · show s.bodies ++ [name] = s.loaded_ ++ [name]
      rw [ha]
    · show (s.loaded_ ++ [name]).Nodup
      rw [List.nodup_append]
      refine ⟨hb, List.nodup_singleton _, ?_⟩
      intro a h1 h2
      simp only [List.mem_singleton] at h2
      subst h2
      exact hmem h1
    · intro n hn
      rcases mem_swap (Worker.start name) hn with h | h
      · simp at h
      · exact hd n (by rw [hw]; exact h)
    · intro n hn
      simp only [List.mem_append, List.mem_singleton] at hn
      rcases hn with h | rfl
      · exact he n h
      · exact hd n (by rw [hw]; exact mem_mid _ _ _)
    · intro n hn
      rcases hf n hn with h | h | h
      · exact Or.inl h
      · by_cases hnn : n = name
        · exact Or.inr (Or.inr (List.mem_append_right _ (by simp [hnn])))
        · rw [hw] at h
          exact Or.inr (Or.inl (mem_swap_of_ne _ h (by simpa using hnn)))
      · exact Or.inr (Or.inr (List.mem_append_left _ h))
    · intro n hn
      simp only [List.mem_append, List.mem_singleton] at hn
      rcases hn with h | rfl
      · rcases hg n h with ⟨w, hwm, hwb⟩ | h2
        · rw [hw] at hwm
          refine Or.inl ⟨w, mem_swap_of_ne _ hwm ?_, hwb⟩
          rintro rfl
          simp [Worker.body] at hwb
        · exact Or.inr h2
      · exact Or.inl ⟨Worker.probing n, mem_mid _ _ _, rfl⟩
    · show s.running_ = _
      rw [hi, hw]
      exact busy_length_swap before after _ _ rfl
    · intro hdone
      have := (hj hdone).2 (Worker.start name) (by rw [hw]; exact mem_mid _ _ _)
      simp at this
    · intro n r hn
      rcases mem_swap (Worker.start name) hn with h | h
      · simp at h
      · exact hl n r (by rw [hw]; exact h)
  | probe_ok before after name r hcr hw hload =>
    refine ⟨ha, hb, hc, ?_, he, ?_, ?_, hh, ?_, ?_, hk, ?_, hm, hn⟩
    · intro n hn
      rcases mem_swap (Worker.probing name) hn with h | h
      · simp at h
      · exact hd n (by rw [hw]; exact h)
    · intro n hn
      rcases hf n hn with h | h | h
      · exact Or.inl h
      · rw [hw] at h
        exact Or.inr (Or.inl (mem_swap_of_ne _ h (by simp)))
      · exact Or.inr (Or.inr h)
    · intro n hn
      rcases hg n hn with ⟨w, hwm, hwb⟩ | h
      · rw [hw] at hwm
        by_cases hww : w = Worker.probing name
        · subst hww
          simp only [Worker.body, Option.some.injEq] at hwb
          subst hwb
          exact Or.inl ⟨Worker.posting name r.posts, mem_mid _ _ _, rfl⟩
        · exact Or.inl ⟨w, mem_swap_of_ne _ hwm hww, hwb⟩
      · exact Or.inr h
    · show s.running_ = _
      rw [hi, hw]
      exact busy_length_swap before after _ _ rfl
    · intro hdone
      have := (hj hdone).2 (Worker.probing name) (by rw [hw]; exact mem_mid _ _ _)
      simp at this
    · intro n rest hn
      rcases mem_swap (Worker.probing name) hn with h | h
      · simp only [Worker.posting.injEq] at h
        obtain ⟨rfl, rfl⟩ := h
        exact ⟨r, hload, fun x hx => hx⟩
      · exact hl n rest (by rw [hw]; exact h)
  | probe_crash before after name hcr hw hload =>
    refine ⟨ha, hb, hc, hd, he, hf, hg, hh, hi, hj, hk, hl, hm, ?_⟩
    · intro hdone
      have := (hj hdone).2 (Worker.probing name) (by rw [hw]; exact mem_mid _ _ _)
      simp at this
  | post before after name child rest hcr hw =>
    obtain ⟨r0, hr0, hposts⟩ := hl name (child :: rest) (by rw [hw]; exact mem_mid _ _ _)
    refine ⟨ha, hb, ?_, ?_, ?_, ?_, ?_, hh, ?_, ?_, ?_, ?_, ?_, hn⟩
    · intro n hn
      simp only [Walk.postedNames, List.map_append, List.mem_append, List.map_cons,
        List.map_nil, List.mem_singleton] at hn ⊢
      rcases hn with hn | hn
      · exact Or.inl (hc n hn)
      · exact Or.inr hn
    · intro n hn
      simp only [Walk.postedNames, List.map_append, List.mem_append]
      rcases mem_swap (Worker.posting name (child :: rest)) hn with h | h
      · simp at h
      · exact Or.inl (hd n (by rw [hw]; exact h))
    · intro n hn
      simp only [Walk.postedNames, List.map_append, List.mem_append]
      exact Or.inl (he n hn)
    · intro n hn
      simp only [Walk.postedNames, List.map_append, List.mem_append, List.map_cons,
        List.map_nil, List.mem_singleton] at hn
      rcases hn with hn | hn
      · rcases hf n hn with h | h | h
        · exact Or.inl (List.mem_append_left _ h)
        · rw [hw] at h
          exact Or.inr (Or.inl (mem_swap_of_ne _ h (by simp)))
        · exact Or.inr (Or.inr h)
      · exact Or.inl (List.mem_append_right _ (by simp [hn]))
    · intro n hn
      rcases hg n hn with ⟨w, hwm, hwb⟩ | h
      · rw [hw] at hwm
        by_cases hww : w = Worker.posting name (child :: rest)
        · subst hww
          simp only [Worker.body, Option.some.injEq] at hwb
          subst hwb
          exact Or.inl ⟨Worker.posting name rest, mem_mid _ _ _, rfl⟩
        · exact Or.inl ⟨w, mem_swap_of_ne _ hwm hww, hwb⟩
      · exact Or.inr h
    · show s.running_ = _
      rw [hi, hw]
      exact busy_length_swap before after _ _ rfl
    · intro hdone
      have := (hj hdone).2 (Worker.posting name (child :: rest)) (by rw [hw]; exact mem_mid _ _ _)
      simp at this
    · intro needed h2 h3 n hn
      rcases hk needed h2 h3 n hn with h | h
      · exact Or.inl h
      · exact Or.inr (List.mem_append_left _ h)
    · intro n r hn
      rcases mem_swap (Worker.posting name (child :: rest)) hn with h | h
      · simp only [Worker.posting.injEq] at h
        obtain ⟨rfl, rfl⟩ := h
        exact ⟨r0, hr0, fun x hx => hposts x (List.mem_cons_of_mem _ hx)⟩
      · exact hl n r (by rw [hw]; exact h)
    · intro n x hx
      simp only [List.mem_append, List.mem_singleton, Prod.mk.injEq, Option.some.injEq] at hx
      rcases hx with h | ⟨rfl, rfl⟩
      · exact hm n x h
      · exact ⟨r0, hr0, hposts x (List.mem_cons_self _ _)⟩
  | record before after name hcr hw =>
    refine ⟨ha, hb, hc, ?_, he, ?_, ?_, nodup_statsAssign _ _ hh, ?_, ?_, hk, ?_, hm, hn⟩
    · intro n hn
      rcases mem_swap (Worker.posting name []) hn with h | h
      · simp at h
      · exact hd n (by rw [hw]; exact h)
    · intro n hn
      rcases hf n hn with h | h | h
      · exact Or.inl h
      · rw [hw] at h
        exact Or.inr (Or.inl (mem_swap_of_ne _ h (by simp)))
      · exact Or.inr (Or.inr h)
    · intro n hn
      rcases hg n hn with ⟨w, hwm, hwb⟩ | h
      · rw [hw] at hwm
        by_cases hww : w = Worker.posting name []
        · subst hww
          simp only [Worker.body, Option.some.injEq] at hwb
          exact Or.inr ((mem_statsAssign _ _ _).2 (Or.inr hwb.symm))
        · exact Or.inl ⟨w, mem_swap_of_ne _ hwm hww, hwb⟩
      · exact Or.inr ((mem_statsAssign _ _ _).2 (Or.inl h))
    · show s.running_ = _
      rw [hi, hw]
      exact busy_length_swap before after _ _ rfl
    · intro hdone
      have := (hj hdone).2 (Worker.posting name []) (by rw [hw]; exact mem_mid _ _ _)
      simp at this
    · intro n r hn
      rcases mem_swap (Worker.posting name []) hn with h | h
      · simp at h
      · exact hl n r (by rw [hw]; exact h)
  | finish before after hcr hw =>
    refine ⟨ha, hb, hc, ?_, he, ?_, ?_, hh, ?_, ?_, hk, ?_, hm, hn⟩
    · intro n hn
      rcases mem_swap (Worker.finishing) hn with h | h
      · simp at h
      · exact hd n (by rw [hw]; exact h)
    · intro n hn
      rcases hf n hn with h | h | h
      · exact Or.inl h
      · rw [hw] at h
        exact Or.inr (Or.inl (mem_swap_of_ne _ h (by simp)))
      · exact Or.inr (Or.inr h)
    · intro n hn
      rcases hg n hn with ⟨w, hwm, hwb⟩ | h
      · rw [hw] at hwm
        refine Or.inl ⟨w, mem_swap_of_ne _ hwm ?_, hwb⟩
        rintro rfl
        simp [Worker.body] at hwb
      · exact Or.inr h
    · show s.running_ - 1 = ((before ++ Worker.idle :: after).filter Worker.busy).length
      rw [hi, hw, busy_length_idle before after Worker.finishing rfl]
      omega
    · intro hdone
      have := (hj hdone).2 (Worker.finishing) (by rw [hw]; exact mem_mid _ _ _)
      simp at this
    · intro n r hn
      rcases mem_swap (Worker.finishing) hn with h | h
      · simp at h
      · exact hl n r (by rw [hw]; exact h)

theorem Walk.walkInv_reachable (c : ElfClass) (fs : FS) (paths_ : List Bytes) (filename : Bytes)
    (s : Walk) (h : Walk.Reachable c fs paths_ filename s) : Walk.Inv c fs paths_ filename s := by
  induction h with
  | init => exact Walk.walkInv_init c fs paths_ filename
  | step s t _ hst ih => exact Walk.walkInv_step c fs paths_ filename s t ih hst

theorem occurrences_of_not_mem (name : Bytes) (l : List Bytes) (h : name ∉ l) :
    occurrences name l = 0 := by
  unfold occurrences
  rw [List.length_eq_zero, List.filter_eq_nil_iff]
  intro a ha
  simp only [decide_eq_true_eq]
  rintro rfl
  exact h ha

theorem occurrences_cons (name a : Bytes) (l : List Bytes) :
    occurrences name (a :: l) = (if a = name then 1 else 0) + occurrences name l := by
  unfold occurrences
  by_cases h : a = name
  · simp [List.filter_cons, h]
    omega
  · simp [List.filter_cons, h]

theorem occurrences_le_one (name : Bytes) (l : List Bytes) (h : l.Nodup) :
    occurrences name l ≤ 1 := by
  induction l with
  | nil => simp [occurrences]
  | cons a l ih =>
    rw [List.nodup_cons] at h
    rw [occurrences_cons]
    by_cases ha : a = name
    · subst ha
      rw [occurrences_of_not_mem a l h.1]
      simp
    · have := ih h.2
      simp only [ha, if_false]
      omega

theorem occurrences_eq_one (name : Bytes) (l : List Bytes) (h : l.Nodup) (hm : name ∈ l) :
    occurrences name l = 1 := by
  induction l with
  | nil => simp at hm
  | cons a l ih =>
    rw [List.nodup_cons] at h
    rw [occurrences_cons]
    by_cases ha : a = name
    · subst ha
      rw [occurrences_of_not_mem a l h.1]
      simp
    · have hml : name ∈ l := by
        rcases List.mem_cons.1 hm with h1 | h1
        · exact absurd h1.symm ha
        · exact h1
      rw [ih h.2 hml]
      simp [ha]

/-- C2: in every execution of the walk, with the test-and-set of `loaded_[name]`
as one atomic step and the jobs started in any order by any worker: the part of
`load` after the test is entered at most once for each name; when the pool has
drained (`Wait` has returned) it has been entered exactly once for each name
that was posted, however often it was posted; and at every moment the number
of times it has been entered is at most the number of distinct names posted. -/
theorem Walk.body_once (c : ElfClass) (fs : FS) (paths_ : List Bytes) (filename : Bytes)
    (s : Walk) (h : Walk.Reachable c fs paths_ filename s) :
    (∀ name, occurrences name s.bodies ≤ 1) ∧
    (s.caller = Caller.done → ∀ name ∈ s.postedNames, occurrences name s.bodies = 1) ∧
    s.bodies.length ≤ s.postedNames.dedup.length := by
  have inv := Walk.walkInv_reachable c fs paths_ filename s h
  have hnd : s.bodies.Nodup := by rw [inv.bodies_eq]; exact inv.nodup
  refine ⟨fun name => occurrences_le_one name _ hnd, ?_, ?_⟩
  · intro hdone name hname
    obtain ⟨hjobs, hidle⟩ := inv.quiet hdone
    apply occurrences_eq_one name _ hnd
    rw [inv.bodies_eq]
    rcases inv.posted_pending name hname with h1 | h1 | h1
    · rw [hjobs] at h1
      simp at h1
    · have := hidle _ h1
      simp at this
    · exact h1
  · apply List.Subperm.length_le
    apply List.subperm_of_subset hnd
    intro n hn
    rw [inv.bodies_eq] at hn
    exact List.mem_dedup.2 (inv.loaded_posted n hn)

/-- C5: when `load_elf` returns true on the root with the list `needed`, and
`name` is in `needed` and no file `prefix + "/" + name` can be opened:
`loadMain` returns true; the prefix loop of `load(name)` tries every prefix,
ends without a fatal error and posts nothing; in every execution of the walk
no job is ever posted by `load(name)`, and when the pool has drained no fatal
error has occurred, `name` is marked in `loaded_` and `stats_` has exactly one
entry for `name`. -/
theorem Walk.unresolved (c : ElfClass) (fs : FS) (paths_ : List Bytes)
    (filename name : Bytes) (needed : List Bytes)
    (hroot : load_elf c fs filename = Outcome.ok needed) (hname : name ∈ needed)
    (habsent : ∀ p ∈ paths_, fs (p ++ [slash] ++ name) = none) :
    loadMain c fs filename = Outcome.ok (true, needed) ∧
    loadBody c fs name paths_ =
      Outcome.ok ⟨paths_.map (fun p => p ++ [slash] ++ name), []⟩ ∧
    ∀ s, Walk.Reachable c fs paths_ filename s →
      (∀ x, (some name, x) ∉ s.posted) ∧
      (s.caller = Caller.done →
        s.crashed = false ∧ name ∈ s.loaded_ ∧ occurrences name s.stats_ = 1) := by
  have hbody : loadBody c fs name paths_ =
      Outcome.ok ⟨paths_.map (fun p => p ++ [slash] ++ name), []⟩ := by
    clear hroot hname
    induction paths_ with
    | nil => rfl
    | cons p rest ih =>
      have hp : load_elf c fs (p ++ [slash] ++ name) = Outcome.fail := by
        unfold load_elf
        rw [habsent p (List.mem_cons_self _ _)]
      simp only [loadBody, hp, ih (fun q hq => habsent q (List.mem_cons_of_mem _ hq)),
        List.map_cons]
  refine ⟨by simp [loadMain, hroot], hbody, fun s hs => ?_⟩
  have inv := Walk.walkInv_reachable c fs paths_ filename s hs
  refine ⟨?_, fun hdone => ?_⟩
  · intro x hx
    obtain ⟨r, hr, hxr⟩ := inv.posted_children name x hx
    rw [hbody] at hr
    simp only [Outcome.ok.injEq] at hr
    subst hr
    simp at hxr
  · obtain ⟨hjobs, hidle⟩ := inv.quiet hdone
    have hposted : name ∈ s.postedNames := by
      rcases inv.root needed hroot (by rw [hdone]; simp) name hname with h1 | h1
      · simp [hdone, Caller.pending] at h1
      · exact List.mem_map.2 ⟨_, h1, rfl⟩
    have hloaded : name ∈ s.loaded_ := by
      rcases inv.posted_pending name hposted with h1 | h1 | h1
      · rw [hjobs] at h1
        simp at h1
      · have := hidle _ h1
        simp at this
      · exact h1
    refine ⟨inv.alive hdone, hloaded, ?_⟩
    apply occurrences_eq_one name _ inv.stats_nodup
    rcases inv.loaded_stats name hloaded with ⟨w, hw, hwb⟩ | h1
    · rw [hidle w hw] at hwb
      simp [Worker.body] at hwb
    · exact h1

theorem progFile_needed_alone :
    load_elf elf64 fsAlone prog = Outcome.ok [libc_so_6, libm_so_6] := by decide

theorem progFile_needed_libs :
    load_elf elf64 fsLibs prog = Outcome.ok [libc_so_6, libm_so_6] := by decide

theorem walkAloneDone_reachable :
    Walk.Reachable elf64 fsAlone [slash_lib] prog walkAloneDone := by
  have h0 : Walk.Reachable elf64 fsAlone [slash_lib] prog Walk.init := Walk.Reachable.init
  have h1 := Walk.Reachable.step _ _ h0
    (Walk.Step.parse_ok _ [libc_so_6, libm_so_6] rfl rfl progFile_needed_alone)
  have h2 := Walk.Reachable.step _ _ h1 (Walk.Step.caller_post _ libc_so_6 [libm_so_6] rfl rfl)
  have h3 := Walk.Reachable.step _ _ h2 (Walk.Step.caller_post _ libm_so_6 [] rfl rfl)
  have h4 := Walk.Reachable.step _ _ h3 (Walk.Step.caller_record _ rfl rfl)
  have h5 := Walk.Reachable.step _ _ h4
    (Walk.Step.pop _ [] (List.replicate 7 Worker.idle) libc_so_6 [libm_so_6] rfl rfl rfl)
  have h6 := Walk.Reachable.step _ _ h5
    (Walk.Step.claim _ [] (List.replicate 7 Worker.idle) libc_so_6 rfl rfl (by decide))
  have h7 := Walk.Reachable.step _ _ h6
    (Walk.Step.probe_ok _ [] (List.replicate 7 Worker.idle) libc_so_6
      ⟨[slash_lib ++ [slash] ++ libc_so_6], []⟩ rfl rfl (by decide))
  have h8 := Walk.Reachable.step _ _ h7
    (Walk.Step.record _ [] (List.replicate 7 Worker.idle) libc_so_6 rfl rfl)
  have h9 := Walk.Reachable.step _ _ h8
    (Walk.Step.finish _ [] (List.replicate 7 Worker.idle) rfl rfl)
  have h10 := Walk.Reachable.step _ _ h9
    (Walk.Step.pop _ [] (List.replicate 7 Worker.idle) libm_so_6 [] rfl rfl rfl)
  have h11 := Walk.Reachable.step _ _ h10
    (Walk.Step.claim _ [] (List.replicate 7 Worker.idle) libm_so_6 rfl rfl (by decide))
  have h12 := Walk.Reachable.step _ _ h11
    (Walk.Step.probe_ok _ [] (List.replicate 7 Worker.idle) libm_so_6
      ⟨[slash_lib ++ [slash] ++ libm_so_6], []⟩ rfl rfl (by decide))
  have h13 := Walk.Reachable.step _ _ h12
    (Walk.Step.record _ [] (List.replicate 7 Worker.idle) libm_so_6 rfl rfl)
  have h14 := Walk.Reachable.step _ _ h13
    (Walk.Step.finish _ [] (List.replicate 7 Worker.idle) rfl rfl)
  have h15 := Walk.Reachable.step _ _ h14 (Walk.Step.caller_wait _ rfl rfl rfl rfl)
  exact h15

theorem walkLibsDone_reachable :
    Walk.Reachable elf64 fsLibs [slash_lib] prog walkLibsDone := by
  have h0 : Walk.Reachable elf64 fsLibs [slash_lib] prog Walk.init := Walk.Reachable.init
  have h1 := Walk.Reachable.step _ _ h0
    (Walk.Step.parse_ok _ [libc_so_6, libm_so_6] rfl rfl progFile_needed_libs)
  have h2 := Walk.Reachable.step _ _ h1 (Walk.Step.caller_post _ libc_so_6 [libm_so_6] rfl rfl)
  have h3 := Walk.Reachable.step _ _ h2 (Walk.Step.caller_post _ libm_so_6 [] rfl rfl)
  have h4 := Walk.Reachable.step _ _ h3 (Walk.Step.caller_record _ rfl rfl)
  -- worker 0 takes `load(libc.so.6)`, worker 1 takes `load(libm.so.6)`
  have h5 := Walk.Reachable.step _ _ h4
    (Walk.Step.pop _ [] (List.replicate 7 Worker.idle) libc_so_6 [libm_so_6] rfl rfl rfl)
  have h6 := Walk.Reachable.step _ _ h5
    (Walk.Step.pop _ [Worker.start libc_so_6] (List.replicate 6 Worker.idle) libm_so_6 []
      rfl rfl rfl)
  -- worker 1 claims `libm.so.6`, finds it and posts `libc.so.6` again
  have h7 := Walk.Reachable.step _ _ h6
    (Walk.Step.claim _ [Worker.start libc_so_6] (List.replicate 6 Worker.idle) libm_so_6
      rfl rfl (by decide))
  have h8 := Walk.Reachable.step _ _ h7
    (Walk.Step.probe_ok _ [Worker.start libc_so_6] (List.replicate 6 Worker.idle) libm_so_6
      ⟨[slash_lib ++ [slash] ++ libm_so_6], [libc_so_6]⟩ rfl rfl (by decide))
  have h9 := Walk.Reachable.step _ _ h8
    (Walk.Step.post _ [Worker.start libc_so_6] (List.replicate 6 Worker.idle) libm_so_6
      libc_so_6 [] rfl rfl)
  -- worker 0 claims `libc.so.6` and finds it
  have h10 := Walk.Reachable.step _ _ h9
    (Walk.Step.claim _ [] (Worker.posting libm_so_6 [] :: List.replicate 6 Worker.idle)
      libc_so_6 rfl rfl (by decide))
  have h11 := Walk.Reachable.step _ _ h10
    (Walk.Step.probe_ok _ [] (Worker.posting libm_so_6 [] :: List.replicate 6 Worker.idle)
      libc_so_6 ⟨[slash_lib ++ [slash] ++ libc_so_6], []⟩ rfl rfl (by decide))
  have h12 := Walk.Reachable.step _ _ h11
    (Walk.Step.record _ [] (Worker.posting libm_so_6 [] :: List.replicate 6 Worker.idle)
      libc_so_6 rfl rfl)
  have h13 := Walk.Reachable.step _ _ h12
    (Walk.Step.record _ [Worker.finishing] (List.replicate 6 Worker.idle) libm_so_6 rfl rfl)
  have h14 := Walk.Reachable.step _ _ h13
    (Walk.Step.finish _ [] (Worker.finishing :: List.replicate 6 Worker.idle) rfl rfl)
  -- worker 0 takes the second `load(libc.so.6)` and returns at the test
  have h15 := Walk.Reachable.step _ _ h14
    (Walk.Step.pop _ [] (Worker.finishing :: List.replicate 6 Worker.idle) libc_so_6 []
      rfl rfl rfl)
  have h16 := Walk.Reachable.step _ _ h15
    (Walk.Step.skip _ [] (Worker.finishing :: List.replicate 6 Worker.idle) libc_so_6
      rfl rfl (by decide))
  have h17 := Walk.Reachable.step _ _ h16
    (Walk.Step.finish _ [] (Worker.finishing :: List.replicate 6 Worker.idle) rfl rfl)
  have h18 := Walk.Reachable.step _ _ h17
    (Walk.Step.finish _ [Worker.idle] (List.replicate 6 Worker.idle) rfl rfl)
  have h19 := Walk.Reachable.step _ _ h18 (Walk.Step.caller_wait _ rfl rfl rfl rfl)
  exact h19

/-- The scenario of C2: the root `prog` needs `libc.so.6` and `libm.so.6`, and
`libm.so.6` needs `libc.so.6`.  The state `walkLibsDone` is reached by two
workers, `libc.so.6` was posted by two parents, and the part of `load` after
the test was entered once for it. -/
theorem Walk.body_once_witness :
    Walk.Reachable elf64 fsLibs [slash_lib] prog walkLibsDone ∧
    ((∀ name, occurrences name walkLibsDone.bodies ≤ 1) ∧
      (walkLibsDone.caller = Caller.done →
        ∀ name ∈ walkLibsDone.postedNames, occurrences name walkLibsDone.bodies = 1) ∧
      walkLibsDone.bodies.length ≤ walkLibsDone.postedNames.dedup.length) ∧
    occurrences libc_so_6 walkLibsDone.postedNames = 2 ∧
    occurrences libc_so_6 walkLibsDone.bodies = 1 :=
  ⟨walkLibsDone_reachable,
    Walk.body_once elf64 fsLibs [slash_lib] prog walkLibsDone walkLibsDone_reachable,
    by decide,
    (Walk.body_once elf64 fsLibs [slash_lib] prog walkLibsDone walkLibsDone_reachable).2.1
      rfl libc_so_6 (by decide)⟩

/-- On `fsAlone` the root `prog` needs `libc.so.6`, which is not under `/lib`:
the walk reaches `walkAloneDone`. -/
theorem Walk.unresolved_witness :
    Walk.Reachable elf64 fsAlone [slash_lib] prog walkAloneDone ∧
    loadMain elf64 fsAlone prog = Outcome.ok (true, [libc_so_6, libm_so_6]) ∧
    loadBody elf64 fsAlone libc_so_6 [slash_lib] =
      Outcome.ok ⟨[slash_lib].map (fun p => p ++ [slash] ++ libc_so_6), []⟩ ∧
    (∀ x, (some libc_so_6, x) ∉ walkAloneDone.posted) ∧
    (walkAloneDone.caller = Caller.done →
      walkAloneDone.crashed = false ∧ libc_so_6 ∈ walkAloneDone.loaded_ ∧
      occurrences libc_so_6 walkAloneDone.stats_ = 1) :=
  have h := Walk.unresolved elf64 fsAlone [slash_lib] prog libc_so_6 [libc_so_6, libm_so_6]
    progFile_needed_alone (by decide) (by decide)
  ⟨walkAloneDone_reachable, h.1, h.2.1, h.2.2 walkAloneDone walkAloneDone_reachable⟩

/-! ## The bytes the parser reads -/

theorem mem_fieldReads {off n o : Nat} : o ∈ fieldReads off n ↔ ∃ k, k < n ∧ o = off + k := by
  unfold fieldReads
  simp only [List.mem_map, List.mem_range]
  constructor
  · rintro ⟨k, hk, rfl⟩; exact ⟨k, hk, rfl⟩
  · rintro ⟨k, hk, rfl⟩; exact ⟨k, hk, rfl⟩

theorem fieldReads_below {off n L : Nat} (h : n = 0 ∨ off + n ≤ L) :
    ∀ o ∈ fieldReads off n, o < L := by
  intro o ho
  obtain ⟨k, hk, rfl⟩ := mem_fieldReads.1 ho
  rcases h with h | h <;> omega

theorem readByte_ok_lt {data : Bytes} {off b : Nat} (h : readByte data off = Outcome.ok b) :
    off < data.length := by
  unfold readByte at h
  rcases hg : data.get? off with _ | x
  · rw [hg] at h
    simp at h
  · exact (List.get?_eq_some.1 hg).1

theorem readLE_ok_le (data : Bytes) : ∀ (n off v : Nat), readLE data off n = Outcome.ok v →
    n = 0 ∨ off + n ≤ data.length := by
  intro n
  induction n with
  | zero => intro off v _; exact Or.inl rfl
  | succ n ih =>
    intro off v h
    right
    simp only [readLE] at h
    rcases hb : readByte data off with b | _ | _ | _ <;> simp only [hb] at h <;>
      try (simp only [reduceCtorEq] at h)
    rcases hr : readLE data (off + 1) n with r | _ | _ | _ <;> simp only [hr] at h <;>
      try (simp only [reduceCtorEq] at h)
    have h1 := readByte_ok_lt hb
    rcases ih (off + 1) r hr with h2 | h2 <;> omega

theorem readLE_reads_below {data : Bytes} {n off v : Nat}
    (h : readLE data off n = Outcome.ok v) : ∀ o ∈ fieldReads off n, o < data.length :=
  fieldReads_below (readLE_ok_le data n off v h)

theorem takeWhile_length_lt (l : List Nat) (h : 0 ∈ l) :
    (l.takeWhile (fun b => b ≠ 0)).length < l.length := by
  induction l with
  | nil => simp at h
  | cons a l ih =>
    by_cases ha : a = 0
    · simp [List.takeWhile, ha]
    · have hl : 0 ∈ l := by
        rcases List.mem_cons.1 h with h1 | h1
        · exact absurd h1.symm ha
        · exact h1
      have h2 := ih hl
      have h3 : (a :: l).takeWhile (fun b => b ≠ 0) = a :: l.takeWhile (fun b => b ≠ 0) := by
        simp [List.takeWhile, ha]
      rw [h3, List.length_cons, List.length_cons]
      omega

theorem cstr_reads_below {data : Bytes} {off : Nat} {name : Bytes}
    (h : cstr data off = Outcome.ok name) : ∀ o ∈ cstrReads data off, o < data.length := by
  unfold cstr at h
  unfold cstrReads
  by_cases hz : 0 ∈ data.drop off
  · simp only [hz, if_true]
    apply fieldReads_below
    right
    have h1 := takeWhile_length_lt _ hz
    rw [List.length_drop] at h1
    omega
  · simp [hz] at h

theorem loadPhdr_ok_read {data : Bytes} {p_headers t : PHeaders} {ph : Nat}
    (h : loadPhdr data p_headers ph = Outcome.ok t) : ∃ ty, readLE data ph 4 = Outcome.ok ty := by
  unfold loadPhdr at h
  rcases hr : readLE data ph 4 with ty | _ | _ | _ <;> simp only [hr] at h <;>
    try (simp only [reduceCtorEq] at h)
  exact ⟨ty, rfl⟩

theorem loadPhdrs_reads_below (c : ElfClass) (data : Bytes) (e_phoff : Nat) :
    ∀ (n i : Nat) (p_headers : PHeaders),
      loadPhdrs c data e_phoff n i p_headers ≠ Outcome.fault →
      ∀ o ∈ loadPhdrsReads c data e_phoff n i p_headers, o < data.length := by
  intro n
  induction n with
  | zero => intro i p_headers _ o ho; simp [loadPhdrsReads] at ho
  | succ n ih =>
    intro i p_headers h
    simp only [loadPhdrs] at h
    simp only [loadPhdrsReads]
    rcases he : readLE data c.off_e_phentsize 2 with e | _ | _ | _ <;> simp only [he] at h <;>
      try (exact absurd rfl h)
    by_cases hov : 2 ^ 31 ≤ e * i
    · simp only [hov, if_true] at h
      exact absurd rfl h
    · simp only [hov, if_false] at h ⊢
      rcases hp : loadPhdr data p_headers ((e_phoff + e * i) % ptrMod) with t | _ | _ | _ <;>
        simp only [hp] at h <;> try (exact absurd rfl h)
      obtain ⟨ty, hty⟩ := loadPhdr_ok_read hp
      rw [List.forall_mem_append, List.forall_mem_append]
      exact ⟨readLE_reads_below he, readLE_reads_below hty, ih (i + 1) t h⟩

theorem strtabLoop_reads_below (c : ElfClass) (data : Bytes) (phdr_ dyntab : Nat) :
    ∀ (fuel i : Nat) (st : StrtabState),
      strtabLoop c data phdr_ dyntab fuel i st ≠ Outcome.fault →
      ∀ o ∈ strtabLoopReads c data phdr_ dyntab fuel i st, o < data.length := by
  intro fuel
  induction fuel with
  | zero => intro i st _ o ho; simp [strtabLoopReads] at ho
  | succ fuel ih =>
    intro i st h
    simp only [strtabLoop] at h
    simp only [strtabLoopReads]
    rcases ht : readLE data ((dyntab + i * c.sizeof_Dyn) % ptrMod) c.word with t | _ | _ | _ <;>
      simp only [ht] at h <;> try (exact absurd rfl h)
    rw [List.forall_mem_append]
    refine ⟨readLE_reads_below ht, ?_⟩
    by_cases hnull : t = DT_NULL
    · simp [hnull]
    · simp only [hnull, if_false] at h ⊢
      by_cases hs : t = DT_STRTAB
      · simp only [hs, if_true] at h ⊢
        by_cases hf : st.found = true
        · simp [hf]
        · simp only [hf, Bool.false_eq_true, if_false] at h ⊢
          rcases h0 : readLE data phdr_ c.sizeof_Phdr with x | _ | _ | _ <;>
            simp only [h0] at h <;> try (exact absurd rfl h)
          rcases h1 : readLE data (((dyntab + i * c.sizeof_Dyn) % ptrMod + c.word) % ptrMod)
            c.word with p | _ | _ | _ <;> simp only [h1] at h <;> try (exact absurd rfl h)
          rcases h2 : readLE data (phdr_ + c.off_p_vaddr) c.word with v | _ | _ | _ <;>
            simp only [h2] at h <;> try (exact absurd rfl h)
          rcases h3 : readLE data (phdr_ + c.off_p_offset) c.word with q | _ | _ | _ <;>
            simp only [h3] at h <;> try (exact absurd rfl h)
          simp only [List.forall_mem_append]
          exact ⟨⟨⟨⟨readLE_reads_below h0, readLE_reads_below h1⟩, readLE_reads_below h2⟩,
            readLE_reads_below h3⟩, ih (i + 1) _ h⟩
      · simp only [hs, if_false] at h ⊢
        exact ih (i + 1) st h

theorem neededLoop_reads_below (c : ElfClass) (data : Bytes) (strtab dyntab : Nat) :
    ∀ (fuel i : Nat) (acc : List Bytes),
      neededLoop c data strtab dyntab fuel i acc ≠ Outcome.fault →
      ∀ o ∈ neededLoopReads c data strtab dyntab fuel i, o < data.length := by
  intro fuel
  induction fuel with
  | zero => intro i acc _ o ho; simp [neededLoopReads] at ho
  | succ fuel ih =>
    intro i acc h
    simp only [neededLoop] at h
    simp only [neededLoopReads]
    rcases ht : readLE data ((dyntab + i * c.sizeof_Dyn) % ptrMod) c.word with t | _ | _ | _ <;>
      simp only [ht] at h <;> try (exact absurd rfl h)
    rw [List.forall_mem_append]
    refine ⟨readLE_reads_below ht, ?_⟩
    by_cases hnull : t = DT_NULL
    · simp [hnull]
    · simp only [hnull, if_false] at h ⊢
      by_cases hs : t = DT_NEEDED
      · simp only [hs, if_true] at h ⊢
        rcases h1 : readLE data (((dyntab + i * c.sizeof_Dyn) % ptrMod + c.word) % ptrMod)
          c.word with u | _ | _ | _ <;> simp only [h1] at h <;> try (exact absurd rfl h)
        dsimp only
        rcases h2 : cstr data ((strtab + u) % ptrMod) with name | _ | _ | _ <;>
          simp only [h2] at h <;> try (exact absurd rfl h)
        simp only [List.forall_mem_append]
        exact ⟨readLE_reads_below h1, cstr_reads_below h2, ih (i + 1) _ h⟩
      · simp only [hs, if_false] at h ⊢
        exact ih (i + 1) acc h

theorem loadDynamicStrtab_reads_below (c : ElfClass) (data : Bytes) (phdr_ dynph : Nat)
    (h : loadDynamicStrtab c data phdr_ dynph ≠ Outcome.fault) :
    ∀ o ∈ loadDynamicStrtabReads c data phdr_ dynph, o < data.length := by
  unfold loadDynamicStrtab at h
  unfold loadDynamicStrtabReads
  rcases h1 : readLE data (dynph + c.off_p_offset) c.word with p | _ | _ | _ <;>
    simp only [h1] at h <;> try (exact absurd rfl h)
  rw [List.forall_mem_append]
  refine ⟨readLE_reads_below h1, ?_⟩
  apply strtabLoop_reads_below
  intro h2
  rw [h2] at h
  exact absurd rfl h

theorem loadDynamicNeeded_reads_below (c : ElfClass) (data : Bytes) (strtab : Option Nat)
    (dynph : Nat) (h : loadDynamicNeeded c data strtab dynph ≠ Outcome.fault) :
    ∀ o ∈ loadDynamicNeededReads c data strtab dynph, o < data.length := by
  unfold loadDynamicNeeded at h
  unfold loadDynamicNeededReads
  cases strtab with
  | none => intro o ho; simp at ho
  | some s =>
    simp only at h ⊢
    rcases h1 : readLE data (dynph + c.off_p_offset) c.word with p | _ | _ | _ <;>
      simp only [h1] at h <;> try (exact absurd rfl h)
    rw [List.forall_mem_append]
    exact ⟨readLE_reads_below h1, neededLoop_reads_below c data s p _ 0 [] h⟩

theorem readByte_cases (data : Bytes) (off : Nat) :
    (∃ b, readByte data off = Outcome.ok b) ∨ readByte data off = Outcome.fault := by
  unfold readByte
  rcases data.get? off with _ | b
  · exact Or.inr rfl
  · exact Or.inl ⟨b, rfl⟩

theorem readLE_cases (data : Bytes) (off n : Nat) :
    (∃ v, readLE data off n = Outcome.ok v) ∨ readLE data off n = Outcome.fault := by
  cases n with
  | zero => exact Or.inl ⟨0, rfl⟩
  | succ n =>
    simp only [readLE]
    rcases readByte data off with b | _ | _ | _
    · rcases readLE data (off + 1) n with r | _ | _ | _
      · exact Or.inl ⟨_, rfl⟩
      all_goals exact Or.inr rfl
    all_goals exact Or.inr rfl

theorem checkMagic_reads_below (data : Bytes) (h : checkMagic data ≠ Outcome.fault) :
    ∀ o ∈ checkMagicReads data, o < data.length := by
  unfold checkMagic at h
  unfold checkMagicReads
  rcases readByte_cases data 0 with ⟨b0, h0⟩ | h0
  swap
  · simp [h0] at h
  have l0 := readByte_ok_lt h0
  by_cases e0 : b0 = 127
  swap
  · simp [h0, e0, l0]
  subst e0
  simp only [h0, Outcome.ok_bind, ASSERT_EQ, if_true] at h ⊢
  rcases readByte_cases data 1 with ⟨b1, h1⟩ | h1
  swap
  · simp [h1] at h
  have l1 := readByte_ok_lt h1
  by_cases e1 : b1 = 69
  swap
  · simp [h1, e1, l0, l1]
  subst e1
  simp only [h1, Outcome.ok_bind, if_true] at h ⊢
  rcases readByte_cases data 2 with ⟨b2, h2⟩ | h2
  swap
  · simp [h2] at h
  have l2 := readByte_ok_lt h2
  by_cases e2 : b2 = 76
  swap
  · simp [h2, e2, l0, l1, l2]
  subst e2
  simp only [h2, Outcome.ok_bind, if_true] at h ⊢
  rcases readByte_cases data 3 with ⟨b3, h3⟩ | h3
  swap
  · simp [h3] at h
  have l3 := readByte_ok_lt h3
  simp [l0, l1, l2, l3]

theorem findDynamic_reads_below (c : ElfClass) (data : Bytes)
    (h : findDynamic c data ≠ Outcome.fault) :
    ∀ o ∈ findDynamicReads c data, o < data.length := by
  unfold findDynamic at h
  unfold findDynamicReads
  have hm : checkMagic data ≠ Outcome.fault := by
    intro e
    simp [e] at h
  rw [List.forall_mem_append]
  refine ⟨checkMagic_reads_below data hm, ?_⟩
  rcases hcm : checkMagic data with u | _ | _ | _ <;> try (intro o ho; simp at ho; done)
  simp only [hcm, Outcome.ok_bind] at h
  dsimp only
  rcases readByte_cases data EI_CLASS with ⟨cls, hc⟩ | hc
  swap
  · simp [hc] at h
  have lc := readByte_ok_lt hc
  simp only [hc, Outcome.ok_bind] at h ⊢
  by_cases ec : cls = c.ELFCLASSXX
  swap
  · simp [ec, lc]
  simp only [ec, ne_eq, not_true_eq_false, if_false] at h ⊢
  rcases readByte_cases data EI_DATA with ⟨enc, hd⟩ | hd
  swap
  · simp [hd] at h
  have ld := readByte_ok_lt hd
  simp only [hd, Outcome.ok_bind] at h ⊢
  by_cases ee : enc = ELFDATA2LSB
  swap
  · simp [ee, lc, ld]
  simp only [ee, ASSERT_EQ, if_true, Outcome.ok_bind] at h ⊢
  rcases readLE_cases data c.off_e_phoff c.word with ⟨e_phoff, h1⟩ | h1
  swap
  · simp [h1] at h
  simp only [h1, Outcome.ok_bind] at h ⊢
  rcases readLE_cases data c.off_e_phnum 2 with ⟨e_phnum, h2⟩ | h2
  swap
  · simp [h2] at h
  simp only [h2, Outcome.ok_bind] at h ⊢
  have hl : loadPhdrs c data e_phoff e_phnum 0 [] ≠ Outcome.fault := by
    intro e
    simp [e] at h
  have b1 := readLE_reads_below h1
  have b2 := readLE_reads_below h2
  have b3 := loadPhdrs_reads_below c data e_phoff e_phnum 0 [] hl
  intro o ho
  simp only [List.mem_cons, List.mem_append] at ho
  rcases ho with rfl | rfl | ho | ho | ho
  · exact lc
  · exact ld
  · exact b1 o ho
  · exact b2 o ho
  · exact b3 o ho

theorem loadMapped_reads_below (c : ElfClass) (data : Bytes)
    (h : loadMapped c data ≠ Outcome.fault) :
    ∀ o ∈ loadMappedReads c data, o < data.length := by
  unfold loadMapped at h
  unfold loadMappedReads
  have hf : findDynamic c data ≠ Outcome.fault := by
    intro e
    simp [e] at h
  rw [List.forall_mem_append]
  refine ⟨findDynamic_reads_below c data hf, ?_⟩
  rcases hfd : findDynamic c data with ⟨phdr_, dynph⟩ | _ | _ | _ <;>
    try (intro o ho; simp at ho; done)
  simp only [hfd, Outcome.ok_bind] at h
  dsimp only
  have hs : loadDynamicStrtab c data phdr_ dynph ≠ Outcome.fault := by
    intro e
    simp [e] at h
  rw [List.forall_mem_append]
  refine ⟨loadDynamicStrtab_reads_below c data phdr_ dynph hs, ?_⟩
  rcases hst : loadDynamicStrtab c data phdr_ dynph with strtab | _ | _ | _ <;>
    try (intro o ho; simp at ho; done)
  simp only [hst, Outcome.ok_bind] at h
  exact loadDynamicNeeded_reads_below c data strtab dynph h

/-- The model ends a run at its first read outside the file; a run of
`load_elf` that ends otherwise has read inside the file only. -/
theorem load_elfReads_inside (c : ElfClass) (fs : FS) (filename data : Bytes)
    (hopen : fs filename = some data)
    (hin : load_elf c fs filename ≠ Outcome.fault) :
    ∀ o ∈ load_elfReads c fs filename, o < data.length := by
  unfold load_elf at hin
  unfold load_elfReads
  rw [hopen] at hin ⊢
  dsimp only at hin ⊢
  by_cases h0 : data.length = 0
  · intro o ho
    simp [h0] at ho
  · simp only [h0, if_false] at hin ⊢
    exact loadMapped_reads_below c data hin

/-- C11 as stated fails: `farTableFile` is 64 bytes long, starts with the magic
bytes and has the class byte of the 64-bit parser; its header gives
`e_phoff = 1048576` and `e_phnum = 1`, and `load_elf` reads `p_type` of that
program header at offset 1048576, which is not below 64. -/
theorem load_elf_reads_outside :
    farTableFile.take 4 = [127, 69, 76, 70] ∧
    farTableFile.get? EI_CLASS = some elf64.ELFCLASSXX ∧
    farTableFile.length = 64 ∧
    load_elfReads elf64 fsFarTable prog =
      [0, 1, 2, 3, 4, 5, 32, 33, 34, 35, 36, 37, 38, 39, 56, 57, 54, 55,
        1048576, 1048577, 1048578, 1048579] ∧
    1048576 ∈ load_elfReads elf64 fsFarTable prog ∧
    ¬ (1048576 < farTableFile.length) := by
  decide

/-! ## `LoadElfFile`, with the destructor of `LibPreloader` -/

theorem Walk.phase_of_active (c : ElfClass) (fs : FS) (filename : Bytes) (s t : Walk)
    (hcaller : t.caller = s.caller)
    (hact : s.jobs_ ≠ [] ∨ ∃ w ∈ s.workers, w ≠ Worker.idle)
    (hs : Walk.Phase c fs filename s) : Walk.Phase c fs filename t := by
  unfold Walk.Phase at hs ⊢
  rw [hcaller]
  rcases hc : s.caller with _ | rest | b | _ <;> rw [hc] at hs
  · exfalso
    rcases hact with h | ⟨w, hw, hne⟩
    · exact h hs.1
    · exact hne (hs.2.1 w hw)
  · exact hs
  · cases b
    · exfalso
      rcases hact with h | ⟨w, hw, hne⟩
      · exact h hs.1
      · exact hne (hs.2.1 w hw)
    · exact hs
  · exact hs

theorem Walk.phase_init (c : ElfClass) (fs : FS) (filename : Bytes) :
    Walk.Phase c fs filename Walk.init := by
  unfold Walk.Phase
  refine ⟨rfl, ?_, ?_⟩
  · intro w hw
    exact List.eq_of_mem_replicate hw
  · intro h
    simp [Walk.init] at h

theorem Walk.phase_step (c : ElfClass) (fs : FS) (paths_ : List Bytes) (filename : Bytes)
    (s t : Walk) (hs : Walk.Phase c fs filename s)
    (h : Walk.Step c fs paths_ filename s t) : Walk.Phase c fs filename t := by
  cases h with
  | parse_ok needed hcr hcl hload =>
    unfold Walk.Phase
    exact ⟨needed, hload⟩
  | parse_fail hcr hcl hload =>
    unfold Walk.Phase at hs ⊢
    rw [hcl] at hs
    exact ⟨hs.1, hs.2.1, hload, hcr⟩
  | parse_crash hcr hcl hload =>
    unfold Walk.Phase at hs ⊢
    rw [hcl] at hs
    show (match s.caller with
      | Caller.parse => _
      | Caller.returned false => _
      | _ => _)
    rw [hcl]
    refine ⟨hs.1, hs.2.1, fun _ => ?_⟩
    rcases hload with h | h <;> rw [h] <;> simp
  | caller_post name rest hcr hcl =>
    unfold Walk.Phase at hs ⊢
    rw [hcl] at hs
    exact hs
  | caller_record hcr hcl =>
    unfold Walk.Phase at hs ⊢
    rw [hcl] at hs
    exact hs
  | caller_wait hcr hcl hjobs hrun =>
    unfold Walk.Phase at hs ⊢
    rw [hcl] at hs
    exact hs
  | pop before after name rest hcr hw hjobs =>
    exact Walk.phase_of_active c fs filename s _ rfl (Or.inl (by rw [hjobs]; simp)) hs
  | skip before after name hcr hw hmem =>
    exact Walk.phase_of_active c fs filename s _ rfl
      (Or.inr ⟨Worker.start name, by rw [hw]; simp, by simp⟩) hs
  | claim before after name hcr hw hmem =>
    exact Walk.phase_of_active c fs filename s _ rfl
      (Or.inr ⟨Worker.start name, by rw [hw]; simp, by simp⟩) hs
  | probe_ok before after name r hcr hw hload =>
    exact Walk.phase_of_active c fs filename s _ rfl
      (Or.inr ⟨Worker.probing name, by rw [hw]; simp, by simp⟩) hs
  | probe_crash before after name hcr hw hload =>
    exact Walk.phase_of_active c fs filename s _ rfl
      (Or.inr ⟨Worker.probing name, by rw [hw]; simp, by simp⟩) hs
  | post before after name child rest hcr hw =>
    exact Walk.phase_of_active c fs filename s _ rfl
      (Or.inr ⟨Worker.posting name (child :: rest), by rw [hw]; simp, by simp⟩) hs
  | record before after name hcr hw =>
    exact Walk.phase_of_active c fs filename s _ rfl
      (Or.inr ⟨Worker.posting name [], by rw [hw]; simp, by simp⟩) hs
  | finish before after hcr hw =>
    exact Walk.phase_of_active c fs filename s _ rfl
      (Or.inr ⟨Worker.finishing, by rw [hw]; simp, by simp⟩) hs

theorem Walk.phase_reachable (c : ElfClass) (fs : FS) (paths_ : List Bytes) (filename : Bytes)
    (s : Walk) (h : Walk.Reachable c fs paths_ filename s) : Walk.Phase c fs filename s := by
  induction h with
  | init => exact Walk.phase_init c fs filename
  | step s t _ hst ih => exact Walk.phase_step c fs paths_ filename s t ih hst

theorem walkAlone32_reachable :
    Walk.Reachable elf32 fsAlone [slash_lib] prog walkAlone32 :=
  Walk.Reachable.step _ _ Walk.Reachable.init (Walk.Step.parse_fail _ rfl rfl (by decide))

theorem walkEmptyLibDead_reachable :
    Walk.Reachable elf64 fsProgEmptyLib [slash_lib] prog walkEmptyLibDead := by
  have h0 : Walk.Reachable elf64 fsProgEmptyLib [slash_lib] prog Walk.init :=
    Walk.Reachable.init
  have h1 := Walk.Reachable.step _ _ h0
    (Walk.Step.parse_ok _ [libc_so_6, libm_so_6] rfl rfl (by decide))
  have h2 := Walk.Reachable.step _ _ h1 (Walk.Step.caller_post _ libc_so_6 [libm_so_6] rfl rfl)
  have h3 := Walk.Reachable.step _ _ h2 (Walk.Step.caller_post _ libm_so_6 [] rfl rfl)
  have h4 := Walk.Reachable.step _ _ h3 (Walk.Step.caller_record _ rfl rfl)
  have h5 := Walk.Reachable.step _ _ h4
    (Walk.Step.pop _ [] (List.replicate 7 Worker.idle) libc_so_6 [libm_so_6] rfl rfl rfl)
  have h6 := Walk.Reachable.step _ _ h5
    (Walk.Step.claim _ [] (List.replicate 7 Worker.idle) libc_so_6 rfl rfl (by decide))
  have hbody : loadBody elf64 fsProgEmptyLib libc_so_6 [slash_lib] = Outcome.abort := by decide
  have h7 := Walk.Reachable.step _ _ h6
    (Walk.Step.probe_crash _ [] (List.replicate 7 Worker.idle) libc_so_6 rfl rfl
      (fun r => by rw [hbody]; simp))
  exact h7

theorem LoadElfFile_alone :
    LoadElfFile fsAlone [slash_lib] prog [ELFCLASS32, ELFCLASS64] (some true) :=
  LoadElfFile.second walkAlone32 walkAloneDone walkAlone32_reachable rfl
    walkAloneDone_reachable rfl

theorem loadMain_of_phase_returned_false (c : ElfClass) (fs : FS) (paths_ : List Bytes)
    (filename : Bytes) (s : Walk) (h : Walk.Reachable c fs paths_ filename s)
    (hc : s.caller = Caller.returned false) :
    loadMain c fs filename = Outcome.ok (false, []) := by
  have hp := Walk.phase_reachable c fs paths_ filename s h
  unfold Walk.Phase at hp
  rw [hc] at hp
  simp [loadMain, hp.2.2.1]

theorem loadMain_of_phase_done (c : ElfClass) (fs : FS) (paths_ : List Bytes)
    (filename : Bytes) (s : Walk) (h : Walk.Reachable c fs paths_ filename s)
    (hc : s.caller = Caller.done) :
    ∃ posts, loadMain c fs filename = Outcome.ok (true, posts) := by
  have hp := Walk.phase_reachable c fs paths_ filename s h
  unfold Walk.Phase at hp
  rw [hc] at hp
  obtain ⟨needed, hn⟩ := hp
  exact ⟨needed, by simp [loadMain, hn]⟩

theorem loadMain_of_phase_crashed (c : ElfClass) (fs : FS) (paths_ : List Bytes)
    (filename : Bytes) (s : Walk) (h : Walk.Reachable c fs paths_ filename s)
    (hc : s.crashed = true) :
    loadMain c fs filename ≠ Outcome.ok (false, []) := by
  have hp := Walk.phase_reachable c fs paths_ filename s h
  unfold Walk.Phase at hp
  have hne : load_elf c fs filename ≠ Outcome.fail := by
    rcases hcl : s.caller with _ | rest | b | _ <;> rw [hcl] at hp
    · exact hp.2.2 hc
    · obtain ⟨needed, hn⟩ := hp
      rw [hn]; simp
    · cases b
      · rw [hp.2.2.2] at hc
        cases hc
      · obtain ⟨needed, hn⟩ := hp
        rw [hn]; simp
    · obtain ⟨needed, hn⟩ := hp
      rw [hn]; simp
  unfold loadMain
  rcases hl : load_elf c fs filename with needed | _ | _ | _
  · simp
  · exact absurd hl hne
  · simp
  · simp

/-- C7, as the code has it: in every run of `LoadElfFile` that ends, `loadMain`
of the 32-bit walker is called first, and `loadMain` of the 64-bit walker is
called exactly when the 32-bit call returned false; when `LoadElfFile` returns
(the run has not ended in `loadMain` or in a job of the pool that the
destructor waits for), it returns true exactly when one of the calls made
returned true. -/
theorem LoadElfFile_order (fs : FS) (paths_ : List Bytes) (filename : Bytes)
    (classes : List Nat) (result : Option Bool)
    (h : LoadElfFile fs paths_ filename classes result) :
    classes.head? = some ELFCLASS32 ∧
    (classes = [ELFCLASS32] ∨ classes = [ELFCLASS32, ELFCLASS64]) ∧
    (ELFCLASS64 ∈ classes ↔ loadMain elf32 fs filename = Outcome.ok (false, [])) ∧
    (∀ value, result = some value →
      (value = true ↔
        (∃ posts, loadMain elf32 fs filename = Outcome.ok (true, posts)) ∨
        (loadMain elf32 fs filename = Outcome.ok (false, []) ∧
          ∃ posts, loadMain elf64 fs filename = Outcome.ok (true, posts)))) := by
  cases h with
  | first s hs hc =>
    obtain ⟨posts, hp⟩ := loadMain_of_phase_done elf32 fs paths_ filename s hs hc
    refine ⟨rfl, Or.inl rfl, ?_, ?_⟩
    · rw [hp]
      simp [ELFCLASS32, ELFCLASS64]
    · intro value hv
      simp only [Option.some.injEq] at hv
      subst hv
      simp [hp]
  | first_dies s hs hc =>
    have hp := loadMain_of_phase_crashed elf32 fs paths_ filename s hs hc
    refine ⟨rfl, Or.inl rfl, ?_, ?_⟩
    · simp [ELFCLASS32, ELFCLASS64, hp]
    · intro value hv
      cases hv
  | second s t hs hc ht htc =>
    have hp := loadMain_of_phase_returned_false elf32 fs paths_ filename s hs hc
    obtain ⟨posts, hq⟩ := loadMain_of_phase_done elf64 fs paths_ filename t ht htc
    refine ⟨rfl, Or.inr rfl, ?_, ?_⟩
    · simp [hp]
    · intro value hv
      simp only [Option.some.injEq] at hv
      subst hv
      simp [hp, hq]
  | second_false s t hs hc ht htc =>
    have hp := loadMain_of_phase_returned_false elf32 fs paths_ filename s hs hc
    have hq := loadMain_of_phase_returned_false elf64 fs paths_ filename t ht htc
    refine ⟨rfl, Or.inr rfl, ?_, ?_⟩
    · simp [hp]
    · intro value hv
      simp only [Option.some.injEq] at hv
      subst hv
      simp [hp, hq]
  | second_dies s t hs hc ht htc =>
    have hp := loadMain_of_phase_returned_false elf32 fs paths_ filename s hs hc
    refine ⟨rfl, Or.inr rfl, ?_, ?_⟩
    · simp [hp]
    · intro value hv
      cases hv

/-- The run of `LoadElfFile` on `prog` of `fsAlone` calls the 32-bit walker,
which returns false, then the 64-bit walker, and returns true after the pool
of the 64-bit walker has drained. -/
theorem LoadElfFile_order_witness :
    LoadElfFile fsAlone [slash_lib] prog [ELFCLASS32, ELFCLASS64] (some true) ∧
    [ELFCLASS32, ELFCLASS64].head? = some ELFCLASS32 ∧
    ([ELFCLASS32, ELFCLASS64] = [ELFCLASS32] ∨
      [ELFCLASS32, ELFCLASS64] = [ELFCLASS32, ELFCLASS64]) ∧
    (ELFCLASS64 ∈ [ELFCLASS32, ELFCLASS64] ↔
      loadMain elf32 fsAlone prog = Outcome.ok (false, [])) ∧
    (∀ value, some true = some value →
      (value = true ↔
        (∃ posts, loadMain elf32 fsAlone prog = Outcome.ok (true, posts)) ∨
        (loadMain elf32 fsAlone prog = Outcome.ok (false, []) ∧
          ∃ posts, loadMain elf64 fsAlone prog = Outcome.ok (true, posts)))) :=
  ⟨LoadElfFile_alone,
    LoadElfFile_order fsAlone [slash_lib] prog [ELFCLASS32, ELFCLASS64] (some true)
      LoadElfFile_alone⟩

/-- C7 as stated fails: on `progFile`, a 64-bit file, there is a run of
`LoadElfFile` in which the first walker called is the 32-bit one, not the
64-bit one, and the 32-bit walker is called although the 64-bit call returns
true. -/
theorem LoadElfFile_runs_32_first :
    LoadElfFile fsAlone [slash_lib] prog [ELFCLASS32, ELFCLASS64] (some true) ∧
    [ELFCLASS32, ELFCLASS64].head? ≠ some ELFCLASS64 ∧
    loadMain elf64 fsAlone prog = Outcome.ok (true, [libc_so_6, libm_so_6]) :=
  ⟨LoadElfFile_alone, by decide, by decide⟩

/-- With an empty file `/lib/libc.so.6`, `loadMain` of the 64-bit walker
returns true on `prog`, and the run of `LoadElfFile` in which the job
`load(libc.so.6)` runs ends in the failed assertion of that job: here
`LoadElfFile` does not return. -/
theorem LoadElfFile_job_aborts :
    loadMain elf32 fsProgEmptyLib prog = Outcome.ok (false, []) ∧
    loadMain elf64 fsProgEmptyLib prog = Outcome.ok (true, [libc_so_6, libm_so_6]) ∧
    LoadElfFile fsProgEmptyLib [slash_lib] prog [ELFCLASS32, ELFCLASS64] none := by
  refine ⟨by decide, by decide, ?_⟩
  have h0 : Walk.Reachable elf32 fsProgEmptyLib [slash_lib] prog walkAlone32 :=
    Walk.Reachable.step _ _ Walk.Reachable.init (Walk.Step.parse_fail _ rfl rfl (by decide))
  exact LoadElfFile.second_dies walkAlone32 walkEmptyLibDead h0 rfl
    walkEmptyLibDead_reachable rfl

/-- When `load_elf` of both classes returns false on the root, `LoadElfFile`
returns false after both calls of `loadMain`: no pool exists, and neither
destructor waits. -/
theorem LoadElfFile_both_fail (fs : FS) (paths_ : List Bytes) (filename : Bytes)
    (h32 : load_elf elf32 fs filename = Outcome.fail)
    (h64 : load_elf elf64 fs filename = Outcome.fail) :
    LoadElfFile fs paths_ filename [ELFCLASS32, ELFCLASS64] (some false) :=
  LoadElfFile.second_false walkAlone32 walkAlone32
    (Walk.Reachable.step _ _ Walk.Reachable.init (Walk.Step.parse_fail _ rfl rfl h32)) rfl
    (Walk.Reachable.step _ _ Walk.Reachable.init (Walk.Step.parse_fail _ rfl rfl h64)) rfl

/-! ## Files whose structures lie inside the file -/

theorem mem_of_lookup {l : List (Nat × Nat)} {a b : Nat} (h : l.lookup a = some b) :
    (a, b) ∈ l := by
  induction l with
  | nil => simp at h
  | cons hd tl ih =>
    obtain ⟨k, v⟩ := hd
    by_cases hk : a = k
    · subst hk
      simp [List.lookup] at h
      subst h
      simp
    · have hne : (a == k) = false := by simpa using hk
      simp only [List.lookup, hne] at h
      exact List.mem_cons_of_mem _ (ih h)

theorem loadPhdrs_in_table (c : ElfClass) (data : Bytes) (e_phoff e_phentsize e_phnum : Nat)
    (hlen : data.length < ptrMod)
    (hes : readLE data c.off_e_phentsize 2 = Outcome.ok e_phentsize)
    (h4 : 4 ≤ e_phentsize)
    (htab : e_phoff + e_phentsize * e_phnum ≤ data.length)
    (hsmall : e_phentsize * e_phnum < 2 ^ 31) :
    ∀ (n i : Nat) (tbl : PHeaders), i + n = e_phnum →
      (∀ p ∈ tbl, ∃ j, j < e_phnum ∧ p.2 = e_phoff + e_phentsize * j ∧
        readLE data p.2 4 = Outcome.ok p.1) →
      ∃ tbl1, loadPhdrs c data e_phoff n i tbl = Outcome.ok tbl1 ∧
        ∀ p ∈ tbl1, ∃ j, j < e_phnum ∧ p.2 = e_phoff + e_phentsize * j ∧
          readLE data p.2 4 = Outcome.ok p.1 := by
  intro n
  induction n with
  | zero =>
    intro i tbl _ htbl
    exact ⟨tbl, rfl, htbl⟩
  | succ n ih =>
    intro i tbl hi htbl
    have hlt : i + 1 ≤ e_phnum := by omega
    have hmul := Nat.mul_le_mul_left e_phentsize hlt
    rw [Nat.mul_succ] at hmul
    have hsm : ¬ (2 ^ 31 ≤ e_phentsize * i) := by omega
    have hmod : (e_phoff + e_phentsize * i) % ptrMod = e_phoff + e_phentsize * i :=
      Nat.mod_eq_of_lt (by omega)
    obtain ⟨ty, hty⟩ := readLE_of_le data 4 (e_phoff + e_phentsize * i) (by omega)
    unfold loadPhdrs
    simp only [hes, hsm, if_false, hmod]
    unfold loadPhdr
    simp only [hty]
    rcases hl : List.lookup ty tbl with _ | ph
    · dsimp only
      apply ih (i + 1) _ (by omega)
      intro p hp
      rcases List.mem_append.1 hp with hp | hp
      · exact htbl p hp
      · simp only [List.mem_singleton] at hp
        subst hp
        exact ⟨i, by omega, rfl, hty⟩
    · dsimp only
      exact ih (i + 1) tbl (by omega) htbl

theorem namesAt_of_nul (data : Bytes) (strtab : Nat) :
    ∀ vals : List Nat, (∀ d_val ∈ vals, 0 ∈ data.drop ((strtab + d_val) % ptrMod)) →
      ∃ names, namesAt data strtab vals = Outcome.ok names := by
  intro vals
  induction vals with
  | nil => intro _; exact ⟨[], rfl⟩
  | cons d_val rest ih =>
    intro h
    obtain ⟨names, hn⟩ := ih (fun x hx => h x (List.mem_cons_of_mem _ hx))
    have h0 := h d_val (List.mem_cons_self _ _)
    refine ⟨(data.drop ((strtab + d_val) % ptrMod)).takeWhile (fun b => b ≠ 0) :: names, ?_⟩
    unfold namesAt
    simp only [cstr, h0, if_true, hn]

theorem findDynamic_in_table (c : ElfClass) (data : Bytes) (e_phoff e_phentsize e_phnum : Nat)
    (hc : c = elf32 ∨ c = elf64)
    (hmagic : data.take 4 = [127, 69, 76, 70])
    (hcls : data.get? EI_CLASS = some c.ELFCLASSXX)
    (hin : StructuresInFile c data e_phoff e_phentsize e_phnum) :
    findDynamic c data = Outcome.abort ∨
    ∃ j, j < e_phnum ∧
      findDynamic c data = Outcome.ok (e_phoff, e_phoff + e_phentsize * j) ∧
      readLE data (e_phoff + e_phentsize * j) 4 = Outcome.ok PT_DYNAMIC := by
  have hsz : 4 ≤ c.sizeof_Phdr ∧ 6 ≤ c.off_e_phoff := by
    rcases hc with rfl | rfl <;> decide
  have hL : 6 ≤ data.length := by
    have := readLE_ok_le data c.word c.off_e_phoff e_phoff hin.phoff
    have hw : c.word ≠ 0 := by rcases hc with rfl | rfl <;> decide
    omega
  obtain ⟨enc, henc⟩ : ∃ enc, readByte data EI_DATA = Outcome.ok enc := by
    have h5 : EI_DATA < data.length := by
      unfold EI_DATA
      omega
    exact ⟨data[EI_DATA], by simp [readByte, List.getElem?_eq_getElem h5]⟩
  obtain ⟨tbl, htbl, hinv⟩ := loadPhdrs_in_table c data e_phoff e_phentsize e_phnum
    hin.length hin.phentsize (le_trans hsz.1 hin.entsize) hin.table hin.small e_phnum 0 []
    (by omega) (by intro p hp; cases hp)
  unfold findDynamic
  simp only [checkMagic_of_take hmagic, readByte_of_get? hcls, henc, Outcome.ok_bind,
    ne_eq, not_true_eq_false, if_false, hin.phoff, hin.phnum, htbl]
  by_cases he : enc = ELFDATA2LSB
  · simp only [ASSERT_EQ, he, if_true, Outcome.ok_bind, getPhdr]
    rcases hl : List.lookup PT_DYNAMIC tbl with _ | dynph
    · exact Or.inl rfl
    · obtain ⟨j, hj, hph, hty⟩ := hinv _ (mem_of_lookup hl)
      dsimp only at hph hty
      subst hph
      exact Or.inr ⟨j, hj, rfl, hty⟩
  · left
    simp only [ASSERT_EQ, he, if_false, Outcome.abort_bind]

theorem loadMapped_in_file (c : ElfClass) (data : Bytes) (e_phoff e_phentsize e_phnum : Nat)
    (hc : c = elf32 ∨ c = elf64)
    (hmagic : data.take 4 = [127, 69, 76, 70])
    (hcls : data.get? EI_CLASS = some c.ELFCLASSXX)
    (hin : StructuresInFile c data e_phoff e_phentsize e_phnum) :
    loadMapped c data = Outcome.abort ∨ ∃ names, loadMapped c data = Outcome.ok names := by
  unfold loadMapped
  rcases findDynamic_in_table c data e_phoff e_phentsize e_phnum hc hmagic hcls hin with
    hf | ⟨j, hj, hf, hty⟩
  · left
    simp only [hf, Outcome.abort_bind]
  · obtain ⟨dyntab, ents, hoff, hents, hnul⟩ := hin.dynamic j hj hty
    have hsz : c.off_p_vaddr + c.word ≤ c.sizeof_Phdr ∧ c.off_p_offset + c.word ≤ c.sizeof_Phdr := by
      rcases hc with rfl | rfl <;> decide
    have hmul := Nat.mul_le_mul_left e_phentsize (show 1 ≤ e_phnum by omega)
    rw [Nat.mul_one] at hmul
    have hent := hin.entsize
    have htab := hin.table
    have h0 : e_phoff + c.sizeof_Phdr ≤ data.length := by omega
    obtain ⟨v, hv⟩ := readLE_of_le data c.word (e_phoff + c.off_p_vaddr) (by omega)
    obtain ⟨o, ho⟩ := readLE_of_le data c.word (e_phoff + c.off_p_offset) (by omega)
    simp only [hf, Outcome.ok_bind]
    rw [loadDynamicStrtab_of_dynTable c data e_phoff _ dyntab v o ents hoff hents h0 hv ho]
    rcases hs : entriesWith DT_STRTAB ents with _ | ⟨d_ptr, _ | ⟨q, rest⟩⟩
    · left
      rfl
    · right
      simp only [Outcome.ok_bind]
      rw [loadDynamicNeeded_of_dynTable c data _ _ dyntab ents hoff hents]
      exact namesAt_of_nul data _ _ (hnul d_ptr v o hs hv ho)
    · left
      rfl

theorem progFile_structures : StructuresInFile elf64 progFile 64 56 2 where
  length := by decide
  phoff := by decide
  phentsize := by decide
  phnum := by decide
  entsize := by decide
  table := by decide
  small := by decide
  dynamic := by
    intro i hi hty
    interval_cases i
    · exact absurd hty (by decide)
    · refine ⟨176, [(1, 1), (1, 11), (5, 240)], by decide, by decide, ?_⟩
      intro d_ptr v o hs hv ho d_val hd
      have e1 : entriesWith DT_STRTAB [(1, 1), (1, 11), (5, 240)] = [240] := by decide
      have e2 : readLE progFile (64 + elf64.off_p_vaddr) elf64.word = Outcome.ok 0 := by decide
      have e3 : readLE progFile (64 + elf64.off_p_offset) elf64.word = Outcome.ok 0 := by decide
      have e4 : entriesWith DT_NEEDED [(1, 1), (1, 11), (5, 240)] = [1, 11] := by decide
      rw [e1] at hs
      rw [e2] at hv
      rw [e3] at ho
      rw [e4] at hd
      cases hs
      cases hv
      cases ho
      simp only [List.mem_cons, List.mem_singleton, List.not_mem_nil, or_false] at hd
      rcases hd with rfl | rfl <;> decide

/-- C11, as the code has it: `load_elf` checks no offset against the length of
the mapping; that its reads stay in the file is a property of the file.  For
every opened file of length `L < 2^64` that starts with the magic bytes and
has the class byte of the parser, and in which the structures the parser
follows lie inside the file (`StructuresInFile`: the header fields, the
program header table, the dynamic table of every `PT_DYNAMIC` header up to
`DT_NULL`, and the NUL of every needed name at the offset computed from
program header 0), `load_elf` ends in `return true` or in a failed assertion,
and every byte it reads lies at an offset below `L`. -/
theorem load_elf_reads_below (c : ElfClass) (fs : FS) (filename data : Bytes)
    (e_phoff e_phentsize e_phnum : Nat)
    (hc : c = elf32 ∨ c = elf64)
    (hopen : fs filename = some data)
    (hmagic : data.take 4 = [127, 69, 76, 70])
    (hcls : data.get? EI_CLASS = some c.ELFCLASSXX)
    (hin : StructuresInFile c data e_phoff e_phentsize e_phnum) :
    (load_elf c fs filename = Outcome.abort ∨
      ∃ names, load_elf c fs filename = Outcome.ok names) ∧
    ∀ o ∈ load_elfReads c fs filename, o < data.length := by
  have hne : data.length ≠ 0 := by
    intro h0
    rw [List.length_eq_zero] at h0
    subst h0
    simp at hmagic
  have hl : load_elf c fs filename = loadMapped c data := by
    simp only [load_elf, hopen, hne, if_false]
  have hm := loadMapped_in_file c data e_phoff e_phentsize e_phnum hc hmagic hcls hin
  rw [← hl] at hm
  refine ⟨hm, load_elfReads_inside c fs filename data hopen ?_⟩
  rcases hm with h | ⟨names, h⟩ <;> rw [h] <;> simp

/-- On `progFile`, of 261 bytes, the structures lie in the file: `load_elf`
returns true, it reads the last byte of the file, the NUL of `libm.so.6` at
offset 260, and every offset it reads is below 261. -/
theorem load_elf_reads_below_witness :
    StructuresInFile elf64 progFile 64 56 2 ∧
    load_elf elf64 fsAlone prog = Outcome.ok [libc_so_6, libm_so_6] ∧
    (progFile.length = 261 ∧ 260 ∈ load_elfReads elf64 fsAlone prog) ∧
    ((load_elf elf64 fsAlone prog = Outcome.abort ∨
      ∃ names, load_elf elf64 fsAlone prog = Outcome.ok names) ∧
    ∀ o ∈ load_elfReads elf64 fsAlone prog, o < progFile.length) :=
  ⟨progFile_structures, by decide, by decide,
    load_elf_reads_below elf64 fsAlone prog progFile 64 56 2 (Or.inr rfl) (by decide)
      (by decide) (by decide) progFile_structures⟩

end Sopreload
